import Mathlib

/-!
Shallow embedding of `lattice-remove-ctc-blank.cc` (Kaldi/OpenFst tool that
removes CTC blank symbols from the output labels of lattices).

The source file defines one core function, `RemoveCTCBlankFromLattice`, which
  1. scans the input lattice and maps every distinct output label that is
     neither the blank label nor epsilon (0) to a state id in `[1, n]`
     (the `symbol2state` table),
  2. builds a filter transducer `C` with states `0..n` (all final with weight
     `One`, start `0`) whose arcs encode the CTC collapse rule, and
  3. returns `fst::Compose(inp, C)`.

Weights are modelled abstractly as a monoid (the code only ever uses
`LatticeWeight::One` and the semiring product `⊗`); labels are `Int`
(Kaldi `LatticeArc::Label` is a signed `int`); states are `Nat`.

`fst::Compose` is OpenFst library code that is not part of this repository;
it is modelled from the specification (§4.2), see `composeFull` and `compose`.
-/

/-- Arc of a weighted finite-state transducer: input label, output label,
weight, destination state.  Mirrors `LatticeArc` (`fst::ArcTpl`). -/
structure Arc (W : Type) where
  ilabel : Int
  olabel : Int
  weight : W
  dest : Nat
deriving DecidableEq

/-- Weighted finite-state transducer over weight type `W`: a start state, an
explicit finite list of states, per-state outgoing arcs and optional final
weight.  Mirrors the `fst::Fst` interface used by the source
(`Start`, `StateIterator`, `ArcIterator`, `Final`). -/
structure WFST (W : Type) where
  start : Nat
  states : List Nat
  arcsOf : Nat → List (Arc W)
  finalOf : Nat → Option W

/-- Number of states of the automaton. -/
def WFST.numStates {W : Type} (M : WFST W) : Nat := M.states.length

/-- Convenience constructor for a dense automaton whose states are
`0..data.length-1`, with `data[s] = (arcs of s, final weight of s)`.
Input lattices read by the tool have this dense shape. -/
def mkWFST {W : Type} (st : Nat) (data : List (List (Arc W) × Option W)) : WFST W where
  start := st
  states := List.range data.length
  arcsOf := fun s => (data.getD s ([], none)).1
  finalOf := fun s => (data.getD s ([], none)).2

/-- Path predicate: `isPath M s p t` holds when the arc list `p` is a valid
path of `M` from state `s` to state `t` (each arc leaves the state reached by
the previous one). -/
def isPath {W : Type} (M : WFST W) : Nat → List (Arc W) → Nat → Prop
  | s, [], t => s = t
  | s, a :: p, t => a ∈ M.arcsOf s ∧ isPath M a.dest p t

/-- Endpoint of an arc list started at `s`: destination of the last arc, or
`s` itself for the empty list. -/
def pathEnd {W : Type} (s : Nat) (p : List (Arc W)) : Nat :=
  p.foldl (fun _ a => a.dest) s

/-- Accepted path: a valid path from the start state ending in a final
state. -/
def accepted {W : Type} (M : WFST W) (p : List (Arc W)) : Prop :=
  isPath M M.start p (pathEnd M.start p) ∧ (M.finalOf (pathEnd M.start p)).isSome

/-- Weight of an accepted path: the semiring product of its arc weights and
the final weight of its endpoint (per §4.2 every weight along one path is
combined with `⊗`). -/
def pathWeight {W : Type} [Monoid W] (M : WFST W) (p : List (Arc W)) : W :=
  (p.map (fun a => a.weight)).foldr (fun x y => x * y)
    ((M.finalOf (pathEnd M.start p)).getD 1)

/-- Output-label string of a path: output labels with epsilon (0) dropped. -/
def outWord {W : Type} (p : List (Arc W)) : List Int :=
  (p.map (fun a => a.olabel)).filter (fun x => decide (x ≠ 0))

/-- Acceptance of a label sequence as an output-label string. -/
def accepts {W : Type} (M : WFST W) (w : List Int) : Prop :=
  ∃ p, accepted M p ∧ outWord p = w

/-- Raw acceptance: `M` has an accepted path with no epsilon output label
whose (raw) output-label sequence is `w`.  For an acceptor lattice this is
exactly "some epsilon-free accepted path has label sequence `w`". -/
def rawAccepts {W : Type} (M : WFST W) (w : List Int) : Prop :=
  ∃ p, accepted M p ∧ (∀ a ∈ p, a.olabel ≠ 0) ∧ p.map (fun a => a.olabel) = w

/-- Well-formedness of an automaton: the start state is a state, the state
list has no duplicates, and arcs only point at states.  OpenFst lattices
satisfy all three by construction. -/
structure WF {W : Type} (M : WFST W) : Prop where
  start_mem : M.start ∈ M.states
  nodup : M.states.Nodup
  closed : ∀ s, ∀ a ∈ M.arcsOf s, a.dest ∈ M.states

/-- Acceptor property (`fst::kAcceptor`): every arc has equal input and
output labels. -/
def Acceptor {W : Type} (M : WFST W) : Prop :=
  ∀ s, ∀ a ∈ M.arcsOf s, a.ilabel = a.olabel

/-- Acyclicity (`fst::kAcyclic`): there is no nonempty path from a state to
itself. -/
def Acyclic {W : Type} (M : WFST W) : Prop :=
  ∀ s p, isPath M s p s → p = []

/-- Bounded paths: every path leaving the start state is shorter than `F`. -/
def Bounded {W : Type} (M : WFST W) (F : Nat) : Prop :=
  ∀ p t, isPath M M.start p t → p.length < F

/-- List of distinct output labels, in first-occurrence order, accumulated
over one state's arc list: a label is added when it differs from the blank
label and from epsilon and has not been seen before.  Mirrors the inner
`ArcIterator` loop building `symbol2state`. -/
def collectArcs {W : Type} (b : Int) : List Int → List (Arc W) → List Int
  | acc, [] => acc
  | acc, arc :: rest =>
    if arc.olabel ≠ b ∧ arc.olabel ≠ 0 ∧ arc.olabel ∉ acc then
      collectArcs b (acc ++ [arc.olabel]) rest
    else
      collectArcs b acc rest

/-- Accumulation of `collectArcs` over a list of states.  Mirrors the outer
`StateIterator` loop. -/
def collectStates {W : Type} (M : WFST W) (b : Int) : List Int → List Nat → List Int
  | acc, [] => acc
  | acc, s :: rest => collectStates M b (collectArcs b acc (M.arcsOf s)) rest

/-- All distinct non-blank, non-epsilon output labels of `M`, in
first-occurrence order over the state/arc iteration. -/
def collect {W : Type} (M : WFST W) (b : Int) : List Int :=
  collectStates M b [] M.states

/-- Pairs `(label, index)` where the k-th element of the list (0-based)
receives index `off + k + 1`.  The C++ table inserts each new label with
value `symbol2state.size() + 1`, i.e. its first-occurrence position plus
one. -/
def mkPairs : List Int → Nat → List (Int × Nat)
  | [], _ => []
  | x :: rest, k => (x, k + 1) :: mkPairs rest (k + 1)

/-- The `symbol2state` table of the source, as an association list from each
distinct non-blank non-epsilon output label to its state id in `[1, n]`. -/
def symbol2state {W : Type} (M : WFST W) (b : Int) : List (Int × Nat) :=
  mkPairs (collect M b) 0

/-- First-match lookup in the association list (the C++ `unordered_map`
lookup; keys are distinct so first match is the match). -/
def lookupSym : List (Int × Nat) → Int → Option Nat
  | [], _ => none
  | p :: rest, x => if p.1 = x then some p.2 else lookupSym rest x

/-- Filter transducer `C` of the source: states `0..n` (`n` = number of
table entries), all final with weight `One`, start `0`, and per state the
arcs added by the construction loop:
state `0` carries the blank self-loop `(blank, 0)` and one arc `(s, s)` to
state `i` for every table entry `(s, i)`; state `i ≥ 1` (for entry `(s, i)`)
carries the self-loop `(s, 0)`, the arc `(blank, 0)` back to `0`, and one
arc `(s2, s2)` to `j` for every other entry `(s2, j)`. -/
def filterC {W : Type} [Monoid W] (pairs : List (Int × Nat)) (b : Int) : WFST W where
  start := 0
  states := List.range (pairs.length + 1)
  arcsOf := fun q =>
    if q = 0 then
      ⟨b, 0, 1, 0⟩ :: pairs.map (fun p => ⟨p.1, p.1, 1, p.2⟩)
    else
      (pairs.filter (fun p => decide (p.2 = q))).flatMap (fun p =>
        ⟨p.1, 0, 1, p.2⟩ :: ⟨b, 0, 1, 0⟩ ::
          (pairs.filter (fun p2 => decide (p2.1 ≠ p.1))).map
            (fun p2 => ⟨p2.1, p2.1, 1, p2.2⟩))
  finalOf := fun q => if q < pairs.length + 1 then some 1 else none

/-- Modelled from the spec: the deterministic single-step behaviour of the
filter `C` on one input label, from filter state `q`.  Returns the next
state and the emitted output label (`0` = emit nothing): a blank goes to
state `0` emitting nothing; a known symbol already "current" (its state
equals `q`) is consumed silently; any other known symbol is emitted and
becomes current; an unknown label (in particular epsilon) has no matching
arc. -/
def filtStep (b : Int) (pairs : List (Int × Nat)) (q : Nat) (x : Int) : Option (Nat × Int) :=
  if x = b then some (0, 0)
  else
    match lookupSym pairs x with
    | some i => if i = q then some (q, 0) else some (i, x)
    | none => none

/-- Iterated `filtStep`: final filter state and the list of emitted labels
(one entry per consumed input label, `0` where nothing is emitted). -/
def filtRun (b : Int) (pairs : List (Int × Nat)) : Nat → List Int → Option (Nat × List Int)
  | q, [] => some (q, [])
  | q, x :: w =>
    match filtStep b pairs q x with
    | none => none
    | some (q2, e) =>
      match filtRun b pairs q2 w with
      | none => none
      | some (qf, es) => some (qf, e :: es)

/-- Emission sequence of the filter described directly on words: reading `x`
after previous label `prev` emits nothing when `x` is the blank or repeats
`prev`, and emits `x` otherwise; a blank resets `prev` to the blank. -/
def emitFrom (b : Int) : Int → List Int → List Int
  | _, [] => []
  | prev, x :: w =>
    (if x = b ∨ x = prev then 0 else x) :: emitFrom b (if x = b then b else x) w

/-- Removal of duplicates of consecutive identical labels, parameterised by
the label preceding the list. -/
def dedupFrom : Int → List Int → List Int
  | _, [] => []
  | prev, x :: w => if x = prev then dedupFrom x w else x :: dedupFrom x w

/-- CTC collapse rule: merge every maximal run of identical consecutive
labels to a single occurrence, then delete all blanks.  (Runs are read off
the original sequence; a blank separates two occurrences of the same
symbol, so `s, b, s` collapses to `s, s` while `s, s, b` collapses to
`s`.) -/
def collapseCTC (b : Int) (w : List Int) : List Int :=
  (dedupFrom b w).filter (fun x => decide (x ≠ b))

/-- Modelled from the spec: plain composition of `A` and `C` on all state
pairs, per §4.2.  The pair `(a, c)` is encoded as `a * numStates C + c`;
arcs match `A`'s output label against `C`'s input label and carry `A`'s
input label, `C`'s output label, and the product of the two weights;
a pair is final iff both components are, with the product of the final
weights.  (`fst::Compose` is OpenFst code absent from this repository.) -/
def composeFull {W : Type} [Monoid W] (A C : WFST W) : WFST W where
  start := A.start * C.numStates + C.start
  states := A.states.flatMap (fun a => C.states.map (fun c => a * C.numStates + c))
  arcsOf := fun s =>
    (A.arcsOf (s / C.numStates)).flatMap (fun aArc =>
      (C.arcsOf (s % C.numStates)).filterMap (fun cArc =>
        if aArc.olabel = cArc.ilabel then
          some ⟨aArc.ilabel, cArc.olabel, aArc.weight * cArc.weight,
                aArc.dest * C.numStates + cArc.dest⟩
        else none))
  finalOf := fun s =>
    match A.finalOf (s / C.numStates), C.finalOf (s % C.numStates) with
    | some wa, some wc => some (wa * wc)
    | _, _ => none

/-- States reachable from the start state in at most `n` arc steps. -/
def reachList {W : Type} (M : WFST W) : Nat → List Nat
  | 0 => [M.start]
  | n + 1 =>
    (reachList M n ++ (reachList M n).flatMap (fun s => (M.arcsOf s).map (fun a => a.dest))).dedup

/-- Restriction of `M` to the states reachable from the start within `F`
steps; everything else loses its arcs, final weight and state-list entry. -/
def prune {W : Type} (M : WFST W) (F : Nat) : WFST W where
  start := M.start
  states := M.states.filter (fun s => decide (s ∈ reachList M F))
  arcsOf := fun s => if s ∈ reachList M F then M.arcsOf s else []
  finalOf := fun s => if s ∈ reachList M F then M.finalOf s else none

/-- Modelled from the spec: composition keeping only the pair states
reachable from `(start A, start C)` (§4.2: "states unreachable from the
start are excluded").  The fuel `numStates A * numStates C` covers every
simple path through the pair graph that the acyclic use cases produce. -/
def compose {W : Type} [Monoid W] (A C : WFST W) : WFST W :=
  prune (composeFull A C) (A.numStates * C.numStates)

/-- Core routine of the source: build `symbol2state` and the filter `C`,
then return the composition of the input lattice with `C`. -/
def RemoveCTCBlankFromLattice {W : Type} [Monoid W] (inp : WFST W) (blank : Int) : WFST W :=
  compose inp (filterC (symbol2state inp blank) blank)

/-- Image of an input path in the composed automaton: each input arc is
paired with the unique matching filter arc (`filtStep` on its output
label), the pair states being encoded with modulus `nC`. -/
def liftPath {W : Type} [Monoid W] (b : Int) (pairs : List (Int × Nat)) (nC : Nat) :
    Nat → List (Arc W) → List (Arc W)
  | _, [] => []
  | q, aArc :: p =>
    match filtStep b pairs q aArc.olabel with
    | some (q2, e) =>
      ⟨aArc.ilabel, e, aArc.weight * 1, aArc.dest * nC + q2⟩ :: liftPath b pairs nC q2 p
    | none => []

/-- Link between a filter state and the label last processed: state `0`
corresponds to "previous label was the blank (or nothing yet)", state `i`
to "previous label was the symbol mapped to `i`". -/
def StPrev (pairs : List (Int × Nat)) (b : Int) (q : Nat) (prev : Int) : Prop :=
  (prev = b ∧ q = 0) ∨ (prev, q) ∈ pairs

/-- Error outcomes of the command-line program (each corresponds to one
`KALDI_ERR` site in `main`). -/
inductive MainError where
  | parseFailed
  | blankIsEpsilon
  | notAcceptor (key : String)
  | notAcyclic (key : String)
  | notImplemented
deriving DecidableEq

/-- Executable acceptor test, modelling the `fst::kAcceptor` property check
performed by `main` on each lattice. -/
def acceptorCheck {W : Type} (M : WFST W) : Bool :=
  M.states.all (fun s => (M.arcsOf s).all (fun a => decide (a.ilabel = a.olabel)))

/-- One-step successor states of a list of states. -/
def stepDests {W : Type} (M : WFST W) (l : List Nat) : List Nat :=
  l.flatMap (fun s => (M.arcsOf s).map (fun a => a.dest))

/-- States reachable from the given list in at most `n` further steps. -/
def reachInSteps {W : Type} (M : WFST W) : List Nat → Nat → List Nat
  | l, 0 => l
  | l, n + 1 => (reachInSteps M l n ++ stepDests M (reachInSteps M l n)).dedup

/-- Executable acyclicity test, modelling the `fst::kAcyclic` property check
performed by `main` on each lattice: no state can reach itself through at
least one arc. -/
def acyclicCheck {W : Type} (M : WFST W) : Bool :=
  M.states.all (fun s =>
    (reachInSteps M (stepDests M [s]) M.states.length).all (fun t => decide (t ≠ s)))

/-- Processing loop of `main`: for each keyed lattice, validate the acceptor
and acyclicity properties (fatal error naming the offending key otherwise),
then apply `RemoveCTCBlankFromLattice` and emit the keyed result. -/
def processAll {W : Type} [Monoid W] [DecidableEq W] (b : Int) :
    List (String × WFST W) → Except MainError (List (String × WFST W))
  | [] => Except.ok []
  | (key, lat) :: rest =>
    if acceptorCheck lat = false then Except.error (MainError.notAcceptor key)
    else if acyclicCheck lat = false then Except.error (MainError.notAcyclic key)
    else
      match processAll b rest with
      | Except.error e => Except.error e
      | Except.ok outs => Except.ok ((key, RemoveCTCBlankFromLattice lat b) :: outs)

/-- Model of `main` after argument splitting: `parsed` is the result of
`ConvertStringToInteger` on the blank-symbol argument (`none` = not an
integer), `inT`/`outT` say whether the rspecifier/wspecifier classify as
Kaldi tables, and `lats` is the keyed input collection.  The order of the
checks follows the source: parse error first, then the blank-equals-zero
check, then the table requirement, then the per-lattice loop. -/
def mainModel {W : Type} [Monoid W] [DecidableEq W] (parsed : Option Int)
    (inT outT : Bool) (lats : List (String × WFST W)) :
    Except MainError (List (String × WFST W)) :=
  match parsed with
  | none => Except.error MainError.parseFailed
  | some b =>
    if b = 0 then Except.error MainError.blankIsEpsilon
    else if inT && outT then processAll b lats
    else Except.error MainError.notImplemented

/-- Concrete three-state acceptor lattice: one path with label sequence
`1, 2` (with `1` used as the blank label in the examples). -/
def exA : WFST Nat :=
  mkWFST 0 [([⟨1, 1, 1, 1⟩], none), ([⟨2, 2, 1, 2⟩], none), ([], some 1)]

/-- Concrete four-state acceptor lattice: one path with label sequence
`2, 2, 2`. -/
def exB : WFST Nat :=
  mkWFST 0 [([⟨2, 2, 1, 1⟩], none), ([⟨2, 2, 1, 2⟩], none),
    ([⟨2, 2, 1, 3⟩], none), ([], some 1)]


def decIsPath {W : Type} [DecidableEq W] (M : WFST W) :
    ∀ s p t, Decidable (isPath M s p t)
  | s, [], t => inferInstanceAs (Decidable (s = t))
  | s, a :: p, t =>
    have : Decidable (isPath M a.dest p t) := decIsPath M a.dest p t
    inferInstanceAs (Decidable (_ ∧ _))

instance {W : Type} [DecidableEq W] (M : WFST W) (s : Nat) (p : List (Arc W)) (t : Nat) :
    Decidable (isPath M s p t) :=
  decIsPath M s p t

instance {W : Type} [DecidableEq W] (M : WFST W) (p : List (Arc W)) :
    Decidable (accepted M p) :=
  inferInstanceAs (Decidable (_ ∧ _))


theorem isPath_append {W : Type} (M : WFST W) (p q : List (Arc W)) (s t : Nat) :
    isPath M s (p ++ q) t ↔ isPath M s p (pathEnd s p) ∧ isPath M (pathEnd s p) q t := by
  induction p generalizing s with
  | nil => simp [isPath, pathEnd]
  | cons a p ih =>
    simp only [List.cons_append, isPath, pathEnd, List.foldl_cons, List.append_eq]
    rw [ih a.dest]
    constructor
    · rintro ⟨h1, h2, h3⟩
      exact ⟨⟨h1, h2⟩, h3⟩
    · rintro ⟨⟨h1, h2⟩, h3⟩
      exact ⟨h1, h2, h3⟩

theorem pathEnd_nil {W : Type} (s : Nat) : pathEnd s ([] : List (Arc W)) = s := rfl

theorem pathEnd_cons {W : Type} (s : Nat) (a : Arc W) (p : List (Arc W)) :
    pathEnd s (a :: p) = pathEnd a.dest p := rfl

theorem pathEnd_append {W : Type} (s : Nat) (p q : List (Arc W)) :
    pathEnd s (p ++ q) = pathEnd (pathEnd s p) q := by
  simp [pathEnd, List.foldl_append]

theorem isPath_end {W : Type} {M : WFST W} :
    ∀ {s : Nat} {p : List (Arc W)} {t : Nat}, isPath M s p t → t = pathEnd s p := by
  intro s p
  induction p generalizing s with
  | nil => intro t h; exact h.symm
  | cons a p ih =>
    intro t h
    exact ih h.2

theorem isPath_snoc {W : Type} (M : WFST W) (p : List (Arc W)) (a : Arc W) (s t : Nat) :
    isPath M s (p ++ [a]) t ↔
      isPath M s p (pathEnd s p) ∧ a ∈ M.arcsOf (pathEnd s p) ∧ a.dest = t := by
  rw [isPath_append]
  simp [isPath]

theorem reachList_mono {W : Type} (M : WFST W) (n : Nat) :
    ∀ x ∈ reachList M n, x ∈ reachList M (n + 1) := by
  intro x hx
  simp only [reachList, List.mem_dedup, List.mem_append]
  exact Or.inl hx

theorem reachList_le {W : Type} (M : WFST W) {n m : Nat} (h : n ≤ m) :
    ∀ x ∈ reachList M n, x ∈ reachList M m := by
  induction m with
  | zero => intro x hx; have : n = 0 := Nat.le_zero.mp h; simpa [this] using hx
  | succ m ih =>
    intro x hx
    rcases Nat.lt_or_ge n (m + 1) with h2 | h2
    · exact reachList_mono M m x (ih (Nat.lt_succ_iff.mp h2) x hx)
    · have : n = m + 1 := Nat.le_antisymm h h2
      simpa [this] using hx

theorem start_mem_reachList {W : Type} (M : WFST W) (n : Nat) :
    M.start ∈ reachList M n :=
  reachList_le M (Nat.zero_le n) M.start (by simp [reachList])

theorem reachList_step {W : Type} (M : WFST W) {n : Nat} {s : Nat} {a : Arc W}
    (hs : s ∈ reachList M n) (ha : a ∈ M.arcsOf s) :
    a.dest ∈ reachList M (n + 1) := by
  simp only [reachList, List.mem_dedup, List.mem_append, List.mem_flatMap]
  exact Or.inr ⟨s, hs, List.mem_map.mpr ⟨a, ha, rfl⟩⟩

theorem isPath_start_reach {W : Type} (M : WFST W) :
    ∀ (p : List (Arc W)) (t : Nat), isPath M M.start p t → t ∈ reachList M p.length := by
  intro p
  induction p using List.reverseRecOn with
  | nil => intro t h; rw [show t = M.start from h.symm]; simp [reachList]
  | append_singleton p a ih =>
    intro t h
    rw [isPath_snoc] at h
    rcases h with ⟨h1, h2, h3⟩
    have := reachList_step M (ih (pathEnd M.start p) h1) h2
    rw [← h3]
    simpa using this

theorem reachList_path {W : Type} (M : WFST W) :
    ∀ (n : Nat) (x : Nat), x ∈ reachList M n →
      ∃ p, isPath M M.start p x ∧ p.length ≤ n := by
  intro n
  induction n with
  | zero =>
    intro x hx
    simp only [reachList, List.mem_singleton] at hx
    exact ⟨[], by simp [isPath, hx], by simp⟩
  | succ n ih =>
    intro x hx
    simp only [reachList, List.mem_dedup, List.mem_append, List.mem_flatMap,
      List.mem_map] at hx
    rcases hx with hx | ⟨s, hs, a, ha, hdest⟩
    · rcases ih x hx with ⟨p, hp, hlen⟩
      exact ⟨p, hp, Nat.le_succ_of_le hlen⟩
    · rcases ih s hs with ⟨p, hp, hlen⟩
      refine ⟨p ++ [a], ?_, ?_⟩
      · rw [isPath_snoc]
        exact ⟨by rwa [← isPath_end hp], by rwa [← isPath_end hp], hdest⟩
      · simpa using Nat.succ_le_succ hlen

theorem mkWFST_WF {W : Type} (st : Nat) (data : List (List (Arc W) × Option W))
    (hst : st < data.length)
    (hcl : ∀ s < data.length, ∀ a ∈ (data.getD s ([], none)).1, a.dest < data.length) :
    WF (mkWFST st data) := by
  refine ⟨?_, ?_, ?_⟩
  · simpa [mkWFST] using hst
  · simpa [mkWFST] using List.nodup_range data.length
  · intro s a ha
    simp only [mkWFST] at ha
    simp only [mkWFST, List.mem_range]
    rcases Nat.lt_or_ge s data.length with h | h
    · exact hcl s h a ha
    · rw [List.getD_eq_default _ _ h] at ha
      simp at ha

theorem mkWFST_acceptor {W : Type} (st : Nat) (data : List (List (Arc W) × Option W))
    (h : ∀ s < data.length, ∀ a ∈ (data.getD s ([], none)).1, a.ilabel = a.olabel) :
    Acceptor (mkWFST st data) := by
  intro s a ha
  rcases Nat.lt_or_ge s data.length with h2 | h2
  · exact h s h2 a ha
  · simp only [mkWFST] at ha
    rw [List.getD_eq_default _ _ h2] at ha
    simp at ha

theorem isPath_rank_le {W : Type} {M : WFST W} {f : Nat → Nat}
    (hf : ∀ s, ∀ a ∈ M.arcsOf s, f s < f a.dest) :
    ∀ (p : List (Arc W)) (s t : Nat), isPath M s p t → f s ≤ f t ∧ (p ≠ [] → f s < f t) := by
  intro p
  induction p with
  | nil =>
    intro s t h
    rw [show s = t from h]
    exact ⟨Nat.le_refl _, by simp⟩
  | cons a p ih =>
    intro s t h
    have h1 : f s < f a.dest := hf s a h.1
    have h2 := ih a.dest t h.2
    exact ⟨Nat.le_of_lt (Nat.lt_of_lt_of_le h1 h2.1), fun _ => Nat.lt_of_lt_of_le h1 h2.1⟩

theorem acyclic_of_rank {W : Type} (M : WFST W) (f : Nat → Nat)
    (hf : ∀ s, ∀ a ∈ M.arcsOf s, f s < f a.dest) : Acyclic M := by
  intro s p hp
  by_contra hne
  have := (isPath_rank_le hf p s s hp).2 hne
  exact Nat.lt_irrefl _ this

theorem mkWFST_rank {W : Type} (st : Nat) (data : List (List (Arc W) × Option W))
    (f : Nat → Nat)
    (h : ∀ s < data.length, ∀ a ∈ (data.getD s ([], none)).1, f s < f a.dest) :
    ∀ s, ∀ a ∈ (mkWFST st data).arcsOf s, f s < f a.dest := by
  intro s a ha
  rcases Nat.lt_or_ge s data.length with h2 | h2
  · exact h s h2 a ha
  · simp only [mkWFST] at ha
    rw [List.getD_eq_default _ _ h2] at ha
    simp at ha

theorem collectArcs_sub {W : Type} (b : Int) :
    ∀ (l : List (Arc W)) (acc : List Int) (x : Int), x ∈ acc → x ∈ collectArcs b acc l := by
  intro l
  induction l with
  | nil => intro acc x hx; simpa [collectArcs] using hx
  | cons a l ih =>
    intro acc x hx
    simp only [collectArcs]
    split
    · exact ih _ x (by simp [hx])
    · exact ih _ x hx

theorem collectArcs_sound {W : Type} (b : Int) :
    ∀ (l : List (Arc W)) (acc : List Int) (x : Int), x ∈ collectArcs b acc l →
      x ∈ acc ∨ (x ≠ b ∧ x ≠ 0 ∧ ∃ a ∈ l, a.olabel = x) := by
  intro l
  induction l with
  | nil => intro acc x hx; exact Or.inl (by simpa [collectArcs] using hx)
  | cons a l ih =>
    intro acc x hx
    simp only [collectArcs] at hx
    split at hx
    · rename_i hcond
      rcases ih _ x hx with h | h
      · rcases List.mem_append.mp h with h | h
        · exact Or.inl h
        · simp only [List.mem_singleton] at h
          subst h
          exact Or.inr ⟨hcond.1, hcond.2.1, a, by simp⟩
      · exact Or.inr ⟨h.1, h.2.1, by rcases h.2.2 with ⟨a2, ha2, hol⟩; exact ⟨a2, by simp [ha2], hol⟩⟩
    · rcases ih _ x hx with h | h
      · exact Or.inl h
      · exact Or.inr ⟨h.1, h.2.1, by rcases h.2.2 with ⟨a2, ha2, hol⟩; exact ⟨a2, by simp [ha2], hol⟩⟩

theorem collectArcs_complete {W : Type} (b : Int) :
    ∀ (l : List (Arc W)) (acc : List Int) (a : Arc W), a ∈ l →
      a.olabel ≠ b → a.olabel ≠ 0 → a.olabel ∈ collectArcs b acc l := by
  intro l
  induction l with
  | nil => intro acc a ha; simp at ha
  | cons a2 l ih =>
    intro acc a ha hb h0
    rcases List.mem_cons.mp ha with h | h
    · subst h
      simp only [collectArcs]
      split
      · exact collectArcs_sub b l _ _ (by simp)
      · rename_i hcond
        push_neg at hcond
        exact collectArcs_sub b l _ _ (hcond hb h0)
    · simp only [collectArcs]
      split
      · exact ih _ a h hb h0
      · exact ih _ a h hb h0

theorem collectArcs_nodup {W : Type} (b : Int) :
    ∀ (l : List (Arc W)) (acc : List Int), acc.Nodup → (collectArcs b acc l).Nodup := by
  intro l
  induction l with
  | nil => intro acc h; simpa [collectArcs] using h
  | cons a l ih =>
    intro acc h
    simp only [collectArcs]
    split
    · rename_i hcond
      exact ih _ (by simp [List.nodup_append, h, hcond.2.2])
    · exact ih _ h

theorem collectStates_sub {W : Type} (M : WFST W) (b : Int) :
    ∀ (sl : List Nat) (acc : List Int) (x : Int), x ∈ acc → x ∈ collectStates M b acc sl := by
  intro sl
  induction sl with
  | nil => intro acc x hx; simpa [collectStates] using hx
  | cons s sl ih =>
    intro acc x hx
    simp only [collectStates]
    exact ih _ x (collectArcs_sub b _ _ x hx)

theorem collectStates_sound {W : Type} (M : WFST W) (b : Int) :
    ∀ (sl : List Nat) (acc : List Int) (x : Int), x ∈ collectStates M b acc sl →
      x ∈ acc ∨ (x ≠ b ∧ x ≠ 0 ∧ ∃ s ∈ sl, ∃ a ∈ M.arcsOf s, a.olabel = x) := by
  intro sl
  induction sl with
  | nil => intro acc x hx; exact Or.inl (by simpa [collectStates] using hx)
  | cons s sl ih =>
    intro acc x hx
    simp only [collectStates] at hx
    rcases ih _ x hx with h | h
    · rcases collectArcs_sound b _ _ x h with h2 | h2
      · exact Or.inl h2
      · exact Or.inr ⟨h2.1, h2.2.1, s, by simp, h2.2.2⟩
    · rcases h.2.2 with ⟨s2, hs2, a, ha, hol⟩
      exact Or.inr ⟨h.1, h.2.1, s2, by simp [hs2], a, ha, hol⟩

theorem collectStates_complete {W : Type} (M : WFST W) (b : Int) :
    ∀ (sl : List Nat) (acc : List Int) (s : Nat) (a : Arc W), s ∈ sl → a ∈ M.arcsOf s →
      a.olabel ≠ b → a.olabel ≠ 0 → a.olabel ∈ collectStates M b acc sl := by
  intro sl
  induction sl with
  | nil => intro acc s a hs; simp at hs
  | cons s2 sl ih =>
    intro acc s a hs ha hb h0
    rcases List.mem_cons.mp hs with h | h
    · subst h
      simp only [collectStates]
      exact collectStates_sub M b sl _ _ (collectArcs_complete b _ acc a ha hb h0)
    · simp only [collectStates]
      exact ih _ s a h ha hb h0

theorem collectStates_nodup {W : Type} (M : WFST W) (b : Int) :
    ∀ (sl : List Nat) (acc : List Int), acc.Nodup → (collectStates M b acc sl).Nodup := by
  intro sl
  induction sl with
  | nil => intro acc h; simpa [collectStates] using h
  | cons s sl ih =>
    intro acc h
    simp only [collectStates]
    exact ih _ (collectArcs_nodup b _ acc h)

theorem collect_nodup {W : Type} (M : WFST W) (b : Int) : (collect M b).Nodup :=
  collectStates_nodup M b M.states [] (by simp)

theorem collect_sound {W : Type} (M : WFST W) (b : Int) (x : Int) (hx : x ∈ collect M b) :
    x ≠ b ∧ x ≠ 0 ∧ ∃ s ∈ M.states, ∃ a ∈ M.arcsOf s, a.olabel = x := by
  rcases collectStates_sound M b M.states [] x hx with h | h
  · simp at h
  · exact h

theorem collect_complete {W : Type} (M : WFST W) (b : Int) (s : Nat) (a : Arc W)
    (hs : s ∈ M.states) (ha : a ∈ M.arcsOf s) (hb : a.olabel ≠ b) (h0 : a.olabel ≠ 0) :
    a.olabel ∈ collect M b :=
  collectStates_complete M b M.states [] s a hs ha hb h0

theorem mkPairs_keys : ∀ (l : List Int) (k : Nat), (mkPairs l k).map Prod.fst = l := by
  intro l
  induction l with
  | nil => intro k; simp [mkPairs]
  | cons x l ih => intro k; simp [mkPairs, ih]

theorem mkPairs_length (l : List Int) (k : Nat) : (mkPairs l k).length = l.length := by
  have := congrArg List.length (mkPairs_keys l k)
  simpa using this

theorem mkPairs_bounds :
    ∀ (l : List Int) (k : Nat) (x : Int) (i : Nat), (x, i) ∈ mkPairs l k →
      k + 1 ≤ i ∧ i ≤ k + l.length := by
  intro l
  induction l with
  | nil => intro k x i h; simp [mkPairs] at h
  | cons y l ih =>
    intro k x i h
    simp only [mkPairs, List.mem_cons] at h
    rcases h with h | h
    · have : i = k + 1 := congrArg Prod.snd h
      subst this
      simp only [List.length_cons]
      omega
    · have h2 := ih (k + 1) x i h
      simp only [List.length_cons]
      omega

theorem mkPairs_val_inj :
    ∀ (l : List Int) (k : Nat) (x y : Int) (i : Nat),
      (x, i) ∈ mkPairs l k → (y, i) ∈ mkPairs l k → x = y := by
  intro l
  induction l with
  | nil => intro k x y i h; simp [mkPairs] at h
  | cons z l ih =>
    intro k x y i hx hy
    simp only [mkPairs, List.mem_cons] at hx hy
    rcases hx with hx | hx <;> rcases hy with hy | hy
    · rw [show x = z from congrArg Prod.fst hx, show y = z from congrArg Prod.fst hy]
    · have : i = k + 1 := congrArg Prod.snd hx
      subst this
      have := (mkPairs_bounds l (k + 1) y _ hy).1
      omega
    · have : i = k + 1 := congrArg Prod.snd hy
      subst this
      have := (mkPairs_bounds l (k + 1) x _ hx).1
      omega
    · exact ih (k + 1) x y i hx hy

theorem mkPairs_surj :
    ∀ (l : List Int) (k : Nat) (i : Nat), k + 1 ≤ i → i ≤ k + l.length →
      ∃ x, (x, i) ∈ mkPairs l k := by
  intro l
  induction l with
  | nil => intro k i h1 h2; simp only [List.length_nil, Nat.add_zero] at h2; omega
  | cons y l ih =>
    intro k i h1 h2
    rcases Nat.eq_or_lt_of_le h1 with h | h
    · refine ⟨y, ?_⟩
      rw [← h]
      simp only [mkPairs]
      exact List.mem_cons_self _ _
    · have h3 : k + 1 + 1 ≤ i := h
      have h4 : i ≤ k + 1 + l.length := by
        simp only [List.length_cons] at h2
        omega
      rcases ih (k + 1) i h3 h4 with ⟨x, hx⟩
      exact ⟨x, by simp [mkPairs, hx]⟩

theorem mkPairs_mem_of_key :
    ∀ (l : List Int) (k : Nat) (x : Int), x ∈ l → ∃ i, (x, i) ∈ mkPairs l k := by
  intro l
  induction l with
  | nil => intro k x h; simp at h
  | cons y l ih =>
    intro k x h
    rcases List.mem_cons.mp h with h | h
    · exact ⟨k + 1, by simp [mkPairs, h]⟩
    · rcases ih (k + 1) x h with ⟨i, hi⟩
      exact ⟨i, by simp [mkPairs, hi]⟩

theorem lookupSym_some :
    ∀ (pairs : List (Int × Nat)) (x : Int) (i : Nat),
      lookupSym pairs x = some i → (x, i) ∈ pairs := by
  intro pairs
  induction pairs with
  | nil => intro x i h; simp [lookupSym] at h
  | cons p rest ih =>
    intro x i h
    simp only [lookupSym] at h
    split at h
    · rename_i heq
      have h2 : p.2 = i := by simpa using h
      have h3 : p = (x, i) := by
        cases p
        simp only at heq h2
        rw [heq, h2]
      rw [← h3]
      exact List.mem_cons_self _ _
    · exact List.mem_cons_of_mem p (ih x i h)

theorem lookupSym_mem :
    ∀ (pairs : List (Int × Nat)) (x : Int) (i : Nat),
      (pairs.map Prod.fst).Nodup → (x, i) ∈ pairs → lookupSym pairs x = some i := by
  intro pairs
  induction pairs with
  | nil => intro x i _ h; simp at h
  | cons p rest ih =>
    intro x i hnd h
    simp only [List.map_cons, List.nodup_cons] at hnd
    rcases List.mem_cons.mp h with h | h
    · simp [lookupSym, ← h]
    · have hne : p.1 ≠ x := by
        intro heq
        exact hnd.1 (by rw [heq]; exact List.mem_map.mpr ⟨(x, i), h, rfl⟩)
      simp only [lookupSym, if_neg hne]
      exact ih x i hnd.2 h

theorem lookupSym_none_iff :
    ∀ (pairs : List (Int × Nat)) (x : Int),
      lookupSym pairs x = none ↔ ∀ i, (x, i) ∉ pairs := by
  intro pairs
  induction pairs with
  | nil => intro x; simp [lookupSym]
  | cons p rest ih =>
    intro x
    simp only [lookupSym]
    split
    · rename_i heq
      constructor
      · intro h; cases h
      · intro h
        exfalso
        exact h p.2 (by rw [← heq]; exact List.mem_cons_self _ _)
    · rename_i hne
      rw [ih x]
      constructor
      · intro h i hmem
        rcases List.mem_cons.mp hmem with h2 | h2
        · exact hne (congrArg Prod.fst h2.symm)
        · exact h i h2
      · intro h i hmem
        exact h i (List.mem_cons_of_mem p hmem)

/-- Structural facts about the `symbol2state` table that the filter
construction and the composition proofs rely on. -/
structure GoodPairs (pairs : List (Int × Nat)) (b : Int) : Prop where
  key_nodup : (pairs.map Prod.fst).Nodup
  bounds : ∀ x i, (x, i) ∈ pairs → 1 ≤ i ∧ i ≤ pairs.length
  val_inj : ∀ x y i, (x, i) ∈ pairs → (y, i) ∈ pairs → x = y
  surj : ∀ i, 1 ≤ i → i ≤ pairs.length → ∃ x, (x, i) ∈ pairs
  key_ne_b : ∀ x i, (x, i) ∈ pairs → x ≠ b
  key_ne_zero : ∀ x i, (x, i) ∈ pairs → x ≠ 0

theorem goodPairs_symbol2state {W : Type} (M : WFST W) (b : Int) :
    GoodPairs (symbol2state M b) b := by
  have hkeys : (symbol2state M b).map Prod.fst = collect M b := mkPairs_keys _ 0
  have hlen : (symbol2state M b).length = (collect M b).length := mkPairs_length _ 0
  refine ⟨?_, ?_, ?_, ?_, ?_, ?_⟩
  · rw [hkeys]; exact collect_nodup M b
  · intro x i h
    have := mkPairs_bounds (collect M b) 0 x i h
    rw [hlen]
    simpa using this
  · intro x y i hx hy
    exact mkPairs_val_inj (collect M b) 0 x y i hx hy
  · intro i h1 h2
    exact mkPairs_surj (collect M b) 0 i (by simpa using h1) (by rw [hlen] at h2; simpa using h2)
  · intro x i h
    have : x ∈ collect M b := by
      rw [← hkeys]; exact List.mem_map.mpr ⟨(x, i), h, rfl⟩
    exact (collect_sound M b x this).1
  · intro x i h
    have : x ∈ collect M b := by
      rw [← hkeys]; exact List.mem_map.mpr ⟨(x, i), h, rfl⟩
    exact (collect_sound M b x this).2.1

theorem GoodPairs.key_inj {pairs : List (Int × Nat)} {b : Int} (hG : GoodPairs pairs b)
    {x : Int} {i j : Nat} (hi : (x, i) ∈ pairs) (hj : (x, j) ∈ pairs) : i = j := by
  have h1 := lookupSym_mem pairs x i hG.key_nodup hi
  have h2 := lookupSym_mem pairs x j hG.key_nodup hj
  rw [h1] at h2
  injection h2

/-- Invariant on filter states: a state of `C` is either the blank state `0`
or the state of some table entry. -/
def StOk (pairs : List (Int × Nat)) (q : Nat) : Prop :=
  q = 0 ∨ ∃ x, (x, q) ∈ pairs

theorem stOk_zero (pairs : List (Int × Nat)) : StOk pairs 0 := Or.inl rfl

theorem stOk_lt {pairs : List (Int × Nat)} {b : Int} (hG : GoodPairs pairs b) {q : Nat}
    (h : StOk pairs q) : q < pairs.length + 1 := by
  rcases h with h | ⟨x, hx⟩
  · omega
  · have := (hG.bounds x q hx).2
    omega

theorem filtStep_blank (b : Int) (pairs : List (Int × Nat)) (q : Nat) :
    filtStep b pairs q b = some (0, 0) := by
  simp [filtStep]

theorem filtStep_self {pairs : List (Int × Nat)} {b x : Int} {q : Nat}
    (hlk : lookupSym pairs x = some q) (hxb : x ≠ b) :
    filtStep b pairs q x = some (q, 0) := by
  simp only [filtStep, if_neg hxb, hlk]
  simp

theorem filtStep_move {pairs : List (Int × Nat)} {b x : Int} {q i : Nat}
    (hlk : lookupSym pairs x = some i) (hxb : x ≠ b) (hiq : i ≠ q) :
    filtStep b pairs q x = some (i, x) := by
  simp only [filtStep, if_neg hxb, hlk, if_neg hiq]

theorem filtStep_cases {pairs : List (Int × Nat)} {b : Int} {q : Nat} {x : Int}
    {r : Nat × Int} (h : filtStep b pairs q x = some r) :
    (x = b ∧ r = (0, 0)) ∨
      (x ≠ b ∧ ∃ i, lookupSym pairs x = some i ∧
        ((i = q ∧ r = (q, 0)) ∨ (i ≠ q ∧ r = (i, x)))) := by
  by_cases hxb : x = b
  · simp only [filtStep, if_pos hxb] at h
    exact Or.inl ⟨hxb, (Option.some.inj h).symm⟩
  · rcases hlk : lookupSym pairs x with _ | i
    · simp only [filtStep, if_neg hxb, hlk] at h
      exact Option.noConfusion h
    · simp only [filtStep, if_neg hxb, hlk] at h
      by_cases hiq : i = q
      · rw [if_pos hiq] at h
        exact Or.inr ⟨hxb, i, rfl, Or.inl ⟨hiq, (Option.some.inj h).symm⟩⟩
      · rw [if_neg hiq] at h
        exact Or.inr ⟨hxb, i, rfl, Or.inr ⟨hiq, (Option.some.inj h).symm⟩⟩

theorem filtStep_stOk {pairs : List (Int × Nat)} {b : Int} {q q2 : Nat} {x e : Int}
    (h : filtStep b pairs q x = some (q2, e)) : StOk pairs q2 := by
  rcases filtStep_cases h with ⟨_, hr⟩ | ⟨_, i, hlk, hc⟩
  · exact Or.inl (congrArg Prod.fst hr)
  · have hmem := lookupSym_some pairs x i hlk
    rcases hc with ⟨hiq, hr⟩ | ⟨_, hr⟩
    · have : q2 = q := congrArg Prod.fst hr
      subst this
      exact Or.inr ⟨x, hiq ▸ hmem⟩
    · have : q2 = i := congrArg Prod.fst hr
      subst this
      exact Or.inr ⟨x, hmem⟩

theorem filtStep_label {pairs : List (Int × Nat)} {b : Int} {q q2 : Nat} {x e : Int}
    (h : filtStep b pairs q x = some (q2, e)) :
    x = b ∨ ∃ i, (x, i) ∈ pairs := by
  rcases filtStep_cases h with ⟨hxb, _⟩ | ⟨_, i, hlk, _⟩
  · exact Or.inl hxb
  · exact Or.inr ⟨i, lookupSym_some pairs x i hlk⟩

theorem filtStep_emit {pairs : List (Int × Nat)} {b : Int} {q q2 : Nat} {x e : Int}
    (hG : GoodPairs pairs b)
    (h : filtStep b pairs q x = some (q2, e)) :
    e = 0 ∨ (e = x ∧ ∃ i, (x, i) ∈ pairs ∧ e ≠ 0 ∧ e ≠ b) := by
  rcases filtStep_cases h with ⟨_, hr⟩ | ⟨_, i, hlk, hc⟩
  · exact Or.inl (congrArg Prod.snd hr)
  · have hmem := lookupSym_some pairs x i hlk
    rcases hc with ⟨_, hr⟩ | ⟨_, hr⟩
    · exact Or.inl (congrArg Prod.snd hr)
    · have he : e = x := congrArg Prod.snd hr
      subst he
      exact Or.inr ⟨rfl, i, hmem, hG.key_ne_zero e i hmem, hG.key_ne_b e i hmem⟩

theorem filtStep_eps {pairs : List (Int × Nat)} {b : Int} (hG : GoodPairs pairs b)
    (hb : b ≠ 0) (q : Nat) : filtStep b pairs q 0 = none := by
  have hlk : lookupSym pairs 0 = none := by
    rw [lookupSym_none_iff]
    intro i h
    exact hG.key_ne_zero 0 i h rfl
  simp only [filtStep, if_neg (fun h => hb (Eq.symm h)), hlk]

theorem filtStep_inj {pairs : List (Int × Nat)} {b : Int} {q : Nat} {x y : Int}
    {r : Nat × Int} (hG : GoodPairs pairs b)
    (hx : filtStep b pairs q x = some r) (hy : filtStep b pairs q y = some r) : x = y := by
  rcases filtStep_cases hx with ⟨hxb, hrx⟩ | ⟨hxb, i, hlkx, hcx⟩ <;>
    rcases filtStep_cases hy with ⟨hyb, hry⟩ | ⟨hyb, j, hlky, hcy⟩
  · rw [hxb, hyb]
  · exfalso
    have hmy := lookupSym_some pairs y j hlky
    rcases hcy with ⟨hjq, hry⟩ | ⟨_, hry⟩
    · rw [hrx] at hry
      have hq0 : q = 0 := (congrArg Prod.fst hry).symm
      have := (hG.bounds y j hmy).1
      omega
    · rw [hrx] at hry
      have : (0 : Int) = y := congrArg Prod.snd hry
      exact hG.key_ne_zero y j hmy this.symm
  · exfalso
    have hmx := lookupSym_some pairs x i hlkx
    rcases hcx with ⟨hiq, hrx⟩ | ⟨_, hrx⟩
    · rw [hry] at hrx
      have hq0 : q = 0 := (congrArg Prod.fst hrx).symm
      have := (hG.bounds x i hmx).1
      omega
    · rw [hry] at hrx
      have : (0 : Int) = x := congrArg Prod.snd hrx
      exact hG.key_ne_zero x i hmx this.symm
  · have hmx := lookupSym_some pairs x i hlkx
    have hmy := lookupSym_some pairs y j hlky
    rcases hcx with ⟨hiq, hrx⟩ | ⟨hiq, hrx⟩ <;> rcases hcy with ⟨hjq, hry⟩ | ⟨hjq, hry⟩
    · exact hG.val_inj x y q (hiq ▸ hmx) (hjq ▸ hmy)
    · exfalso
      rw [hrx] at hry
      have : (0 : Int) = y := congrArg Prod.snd hry
      exact hG.key_ne_zero y j hmy this.symm
    · exfalso
      rw [hry] at hrx
      have : (0 : Int) = x := congrArg Prod.snd hrx
      exact hG.key_ne_zero x i hmx this.symm
    · rw [hrx] at hry
      exact congrArg Prod.snd hry

theorem filterC_arcsOf_zero {W : Type} [Monoid W] (pairs : List (Int × Nat)) (b : Int) :
    (filterC pairs b : WFST W).arcsOf 0 =
      ⟨b, 0, 1, 0⟩ :: pairs.map (fun p => ⟨p.1, p.1, 1, p.2⟩) := by
  simp [filterC]

theorem filterC_arcsOf_pos {W : Type} [Monoid W] (pairs : List (Int × Nat)) (b : Int)
    (q : Nat) (hq : q ≠ 0) :
    (filterC pairs b : WFST W).arcsOf q =
      (pairs.filter (fun p => decide (p.2 = q))).flatMap (fun p =>
        ⟨p.1, 0, 1, p.2⟩ :: ⟨b, 0, 1, 0⟩ ::
          (pairs.filter (fun p2 => decide (p2.1 ≠ p.1))).map
            (fun p2 => ⟨p2.1, p2.1, 1, p2.2⟩)) := by
  simp [filterC, hq]

theorem filterC_arc_iff {W : Type} [Monoid W] {pairs : List (Int × Nat)} {b : Int}
    (hG : GoodPairs pairs b) (q : Nat) (arc : Arc W) :
    arc ∈ (filterC pairs b : WFST W).arcsOf q ↔
      StOk pairs q ∧ arc.weight = 1 ∧
        filtStep b pairs q arc.ilabel = some (arc.dest, arc.olabel) := by
  obtain ⟨il, ol, w, d⟩ := arc
  by_cases hq : q = 0
  · subst hq
    rw [filterC_arcsOf_zero]
    simp only [List.mem_cons, List.mem_map]
    constructor
    · rintro (heq | ⟨p, hp, heq⟩)
      · cases heq
        exact ⟨stOk_zero pairs, rfl, filtStep_blank b pairs 0⟩
      · cases heq
        refine ⟨stOk_zero pairs, rfl, ?_⟩
        have hxb : p.1 ≠ b := hG.key_ne_b p.1 p.2 hp
        have hlk : lookupSym pairs p.1 = some p.2 := lookupSym_mem pairs p.1 p.2 hG.key_nodup hp
        have hp2 : p.2 ≠ 0 := by
          have := (hG.bounds p.1 p.2 hp).1
          omega
        exact filtStep_move hlk hxb hp2
    · rintro ⟨_, hw, hstep⟩
      subst hw
      rcases filtStep_cases hstep with ⟨hxb, hr⟩ | ⟨hxb, i, hlk, hc⟩
      · left
        have h1 : d = 0 := congrArg Prod.fst hr
        have h2 : ol = 0 := congrArg Prod.snd hr
        rw [hxb, h1, h2]
      · have hmem := lookupSym_some pairs il i hlk
        rcases hc with ⟨hiq, _⟩ | ⟨_, hr⟩
        · exfalso
          have := (hG.bounds il i hmem).1
          omega
        · right
          have h1 : d = i := congrArg Prod.fst hr
          have h2 : ol = il := congrArg Prod.snd hr
          exact ⟨(il, i), hmem, by rw [h1, h2]⟩
  · rw [filterC_arcsOf_pos pairs b q hq]
    simp only [List.mem_flatMap, List.mem_filter, List.mem_cons, List.mem_map,
      decide_eq_true_eq]
    constructor
    · rintro ⟨p, ⟨hp, hpq⟩, hmem⟩
      have hyb : p.1 ≠ b := hG.key_ne_b p.1 p.2 hp
      have hlky : lookupSym pairs p.1 = some p.2 := lookupSym_mem pairs p.1 p.2 hG.key_nodup hp
      rcases hmem with heq | heq | ⟨p2, ⟨hp2, hne⟩, heq⟩
      · cases heq
        refine ⟨Or.inr ⟨p.1, by rw [← hpq]; exact hp⟩, rfl, ?_⟩
        rw [← hpq]
        exact filtStep_self hlky hyb
      · cases heq
        exact ⟨Or.inr ⟨p.1, by rw [← hpq]; exact hp⟩, rfl, filtStep_blank b pairs q⟩
      · cases heq
        refine ⟨Or.inr ⟨p.1, by rw [← hpq]; exact hp⟩, rfl, ?_⟩
        have hxb : p2.1 ≠ b := hG.key_ne_b p2.1 p2.2 hp2
        have hlk : lookupSym pairs p2.1 = some p2.2 :=
          lookupSym_mem pairs p2.1 p2.2 hG.key_nodup hp2
        have hne2 : p2.2 ≠ q := by
          intro heq2
          apply hne
          apply hG.val_inj p2.1 p.1 q (heq2 ▸ hp2) (hpq ▸ hp)
        exact filtStep_move hlk hxb hne2
    · rintro ⟨hst, hw, hstep⟩
      subst hw
      rcases hst with hst | ⟨y, hy⟩
      · exact absurd hst hq
      · refine ⟨(y, q), ⟨hy, rfl⟩, ?_⟩
        have hlky : lookupSym pairs y = some q := lookupSym_mem pairs y q hG.key_nodup hy
        rcases filtStep_cases hstep with ⟨hxb, hr⟩ | ⟨hxb, i, hlk, hc⟩
        · right; left
          have h1 : d = 0 := congrArg Prod.fst hr
          have h2 : ol = 0 := congrArg Prod.snd hr
          rw [hxb, h1, h2]
        · have hmem := lookupSym_some pairs il i hlk
          rcases hc with ⟨hiq, hr⟩ | ⟨hiq, hr⟩
          · left
            have h1 : d = q := congrArg Prod.fst hr
            have h2 : ol = 0 := congrArg Prod.snd hr
            have hil : il = y := by
              apply hG.val_inj il y q (hiq ▸ hmem) hy
            rw [h1, h2, hil]
          · right; right
            have h1 : d = i := congrArg Prod.fst hr
            have h2 : ol = il := congrArg Prod.snd hr
            refine ⟨(il, i), ⟨hmem, ?_⟩, by rw [h1, h2]⟩
            intro heq2
            apply hiq
            have heq3 : il = y := heq2
            exact hG.key_inj (heq3 ▸ hmem) hy

theorem encdec_div {nC a c : Nat} (hc : c < nC) : (a * nC + c) / nC = a := by
  have hn : 0 < nC := Nat.pos_of_ne_zero (by omega)
  rw [Nat.add_comm, Nat.add_mul_div_right c a hn, Nat.div_eq_of_lt hc]
  omega

theorem encdec_mod {nC a c : Nat} (hc : c < nC) : (a * nC + c) % nC = c := by
  rw [Nat.add_comm, Nat.add_mul_mod_self_right, Nat.mod_eq_of_lt hc]

theorem enc_inj {nC a1 c1 a2 c2 : Nat} (hc1 : c1 < nC) (hc2 : c2 < nC)
    (h : a1 * nC + c1 = a2 * nC + c2) : a1 = a2 ∧ c1 = c2 := by
  have h1 : (a1 * nC + c1) / nC = (a2 * nC + c2) / nC := by rw [h]
  have h2 : (a1 * nC + c1) % nC = (a2 * nC + c2) % nC := by rw [h]
  rw [encdec_div hc1, encdec_div hc2] at h1
  rw [encdec_mod hc1, encdec_mod hc2] at h2
  exact ⟨h1, h2⟩

theorem composeFull_arc_iff {W : Type} [Monoid W] (A C : WFST W) (s : Nat) (arc : Arc W) :
    arc ∈ (composeFull A C).arcsOf s ↔
      ∃ aArc ∈ A.arcsOf (s / C.numStates), ∃ cArc ∈ C.arcsOf (s % C.numStates),
        aArc.olabel = cArc.ilabel ∧
        arc = ⟨aArc.ilabel, cArc.olabel, aArc.weight * cArc.weight,
               aArc.dest * C.numStates + cArc.dest⟩ := by
  simp only [composeFull, List.mem_flatMap, List.mem_filterMap]
  constructor
  · rintro ⟨aArc, ha, cArc, hc, heq⟩
    split at heq
    · rename_i hmatch
      exact ⟨aArc, ha, cArc, hc, hmatch, (Option.some.inj heq).symm⟩
    · cases heq
  · rintro ⟨aArc, ha, cArc, hc, hmatch, heq⟩
    refine ⟨aArc, ha, cArc, hc, ?_⟩
    rw [if_pos hmatch, heq]

theorem composeFull_final_iff {W : Type} [Monoid W] (A C : WFST W) (s : Nat) (w : W) :
    (composeFull A C).finalOf s = some w ↔
      ∃ wa wc, A.finalOf (s / C.numStates) = some wa ∧
        C.finalOf (s % C.numStates) = some wc ∧ w = wa * wc := by
  simp only [composeFull]
  rcases ha : A.finalOf (s / C.numStates) with _ | wa <;>
    rcases hc : C.finalOf (s % C.numStates) with _ | wc <;> simp [eq_comm]

theorem composeFull_final_none {W : Type} [Monoid W] (A C : WFST W) (s : Nat)
    (h : A.finalOf (s / C.numStates) = none) : (composeFull A C).finalOf s = none := by
  simp only [composeFull, h]

theorem composeFull_start {W : Type} [Monoid W] (A C : WFST W) :
    (composeFull A C).start = A.start * C.numStates + C.start := rfl

theorem composeFull_states_iff {W : Type} [Monoid W] (A C : WFST W) (s : Nat) :
    s ∈ (composeFull A C).states ↔
      ∃ a ∈ A.states, ∃ c ∈ C.states, s = a * C.numStates + c := by
  simp only [composeFull, List.mem_flatMap, List.mem_map]
  constructor
  · rintro ⟨a, ha, c, hc, heq⟩
    exact ⟨a, ha, c, hc, heq.symm⟩
  · rintro ⟨a, ha, c, hc, heq⟩
    exact ⟨a, ha, c, hc, heq.symm⟩

theorem filterC_numStates {W : Type} [Monoid W] (pairs : List (Int × Nat)) (b : Int) :
    (filterC pairs b : WFST W).numStates = pairs.length + 1 := by
  simp [filterC, WFST.numStates]

theorem filterC_final {W : Type} [Monoid W] (pairs : List (Int × Nat)) (b : Int)
    (q : Nat) (hq : q < pairs.length + 1) :
    (filterC pairs b : WFST W).finalOf q = some 1 := by
  simp [filterC, hq]

theorem filtStep_total {pairs : List (Int × Nat)} {b : Int} (hG : GoodPairs pairs b)
    (q : Nat) {x : Int} (hx : x = b ∨ ∃ i, (x, i) ∈ pairs) :
    ∃ r, filtStep b pairs q x = some r := by
  rcases hx with hx | ⟨i, hi⟩
  · exact ⟨(0, 0), by rw [hx]; exact filtStep_blank b pairs q⟩
  · have hxb := hG.key_ne_b x i hi
    have hlk := lookupSym_mem pairs x i hG.key_nodup hi
    by_cases hiq : i = q
    · exact ⟨(q, 0), filtStep_self (hiq ▸ hlk) hxb⟩
    · exact ⟨(i, x), filtStep_move hlk hxb hiq⟩

theorem liftPath_spec {W : Type} [Monoid W] {A : WFST W} {pairs : List (Int × Nat)}
    {b : Int} (hG : GoodPairs pairs b) :
    ∀ (p : List (Arc W)) (a q : Nat),
      isPath A a p (pathEnd a p) →
      (∀ arc ∈ p, arc.olabel = b ∨ ∃ i, (arc.olabel, i) ∈ pairs) →
      StOk pairs q →
      ∃ qf es,
        filtRun b pairs q (p.map (fun arc => arc.olabel)) = some (qf, es) ∧
        StOk pairs qf ∧
        isPath (composeFull A (filterC pairs b)) (a * (pairs.length + 1) + q)
          (liftPath b pairs (pairs.length + 1) q p)
          (pathEnd a p * (pairs.length + 1) + qf) ∧
        pathEnd (a * (pairs.length + 1) + q) (liftPath b pairs (pairs.length + 1) q p)
          = pathEnd a p * (pairs.length + 1) + qf ∧
        (liftPath b pairs (pairs.length + 1) q p).map (fun arc => arc.ilabel)
          = p.map (fun arc => arc.ilabel) ∧
        (liftPath b pairs (pairs.length + 1) q p).map (fun arc => arc.olabel) = es ∧
        (liftPath b pairs (pairs.length + 1) q p).map (fun arc => arc.weight)
          = p.map (fun arc => arc.weight * 1) := by
  intro p
  induction p with
  | nil =>
    intro a q _ _ hst
    exact ⟨q, [], rfl, hst, rfl, rfl, rfl, rfl, rfl⟩
  | cons arc p ih =>
    intro a q hpath halpha hst
    have hq : q < pairs.length + 1 := stOk_lt hG hst
    have harc : arc ∈ A.arcsOf a := hpath.1
    have hrest : isPath A arc.dest p (pathEnd arc.dest p) := hpath.2
    obtain ⟨⟨q2, e⟩, hstep⟩ := filtStep_total hG q (halpha arc (by simp))
    have hst2 : StOk pairs q2 := filtStep_stOk hstep
    obtain ⟨qf, es, hrun, hstf, hipath, hpend, him, hom, hwm⟩ :=
      ih arc.dest q2 hrest (fun a2 ha2 => halpha a2 (by simp [ha2])) hst2
    have hlift : liftPath b pairs (pairs.length + 1) q (arc :: p)
        = (⟨arc.ilabel, e, arc.weight * 1, arc.dest * (pairs.length + 1) + q2⟩ : Arc W)
          :: liftPath b pairs (pairs.length + 1) q2 p := by
      simp only [liftPath, hstep]
    refine ⟨qf, e :: es, ?_, hstf, ?_, ?_, ?_, ?_, ?_⟩
    · simp only [List.map_cons, filtRun, hstep, hrun]
    · rw [hlift]
      refine ⟨?_, ?_⟩
      · rw [composeFull_arc_iff, filterC_numStates, encdec_div hq, encdec_mod hq]
        refine ⟨arc, harc, ⟨arc.olabel, e, 1, q2⟩, ?_, rfl, rfl⟩
        rw [filterC_arc_iff hG]
        exact ⟨hst, rfl, hstep⟩
      · exact hipath
    · rw [hlift, pathEnd_cons]
      exact hpend
    · rw [hlift]
      simp only [List.map_cons]
      rw [him]
    · rw [hlift]
      simp only [List.map_cons]
      rw [hom]
    · rw [hlift]
      simp only [List.map_cons]
      rw [hwm]

theorem composePath_inv {W : Type} [Monoid W] {A : WFST W} {pairs : List (Int × Nat)}
    {b : Int} (hG : GoodPairs pairs b) (hb : b ≠ 0) :
    ∀ (P : List (Arc W)) (a q : Nat),
      StOk pairs q →
      isPath (composeFull A (filterC pairs b)) (a * (pairs.length + 1) + q) P
        (pathEnd (a * (pairs.length + 1) + q) P) →
      ∃ p, isPath A a p (pathEnd a p) ∧
        (∀ arc ∈ p, arc.olabel = b ∨ ∃ i, (arc.olabel, i) ∈ pairs) ∧
        (∀ arc ∈ p, arc.olabel ≠ 0) ∧
        P = liftPath b pairs (pairs.length + 1) q p := by
  intro P
  induction P with
  | nil =>
    intro a q _ _
    exact ⟨[], rfl, by simp, by simp, rfl⟩
  | cons Parc P2 ih =>
    intro a q hst hpath
    have hq : q < pairs.length + 1 := stOk_lt hG hst
    have hmem := hpath.1
    rw [composeFull_arc_iff, filterC_numStates, encdec_div hq, encdec_mod hq] at hmem
    obtain ⟨aArc, ha, cArc, hcmem, hmatch, heq⟩ := hmem
    rw [filterC_arc_iff hG] at hcmem
    obtain ⟨_, hcw, hcstep⟩ := hcmem
    have hstep : filtStep b pairs q aArc.olabel = some (cArc.dest, cArc.olabel) := by
      rw [hmatch]
      exact hcstep
    have hst2 : StOk pairs cArc.dest := filtStep_stOk hstep
    have hdest : Parc.dest = aArc.dest * (pairs.length + 1) + cArc.dest := by
      rw [heq]
    have htail : isPath (composeFull A (filterC pairs b))
        (aArc.dest * (pairs.length + 1) + cArc.dest) P2
        (pathEnd (aArc.dest * (pairs.length + 1) + cArc.dest) P2) := by
      have h2 : isPath (composeFull A (filterC pairs b)) Parc.dest P2
          (pathEnd Parc.dest P2) := hpath.2
      rwa [hdest] at h2
    obtain ⟨p2, hp2path, hp2alpha, hp2nz, hp2lift⟩ := ih aArc.dest cArc.dest hst2 htail
    refine ⟨aArc :: p2, ⟨ha, hp2path⟩, ?_, ?_, ?_⟩
    · intro arc harcm
      rcases List.mem_cons.mp harcm with h | h
      · subst h
        exact filtStep_label hstep
      · exact hp2alpha arc h
    · intro arc harcm
      rcases List.mem_cons.mp harcm with h | h
      · subst h
        rcases filtStep_label hstep with h2 | ⟨i, h2⟩
        · rw [h2]; exact hb
        · exact hG.key_ne_zero arc.olabel i h2
      · exact hp2nz arc h
    · have hlift : liftPath b pairs (pairs.length + 1) q (aArc :: p2)
          = (⟨aArc.ilabel, cArc.olabel, aArc.weight * 1,
              aArc.dest * (pairs.length + 1) + cArc.dest⟩ : Arc W)
            :: liftPath b pairs (pairs.length + 1) cArc.dest p2 := by
        simp only [liftPath, hstep]
      rw [hlift, ← hp2lift, heq, hcw]

theorem liftPath_inj {W : Type} [Monoid W] {pairs : List (Int × Nat)} {b : Int}
    (hG : GoodPairs pairs b) :
    ∀ (p1 p2 : List (Arc W)) (q : Nat),
      (∀ arc ∈ p1, arc.olabel = b ∨ ∃ i, (arc.olabel, i) ∈ pairs) →
      (∀ arc ∈ p2, arc.olabel = b ∨ ∃ i, (arc.olabel, i) ∈ pairs) →
      liftPath b pairs (pairs.length + 1) q p1
        = liftPath b pairs (pairs.length + 1) q p2 →
      p1 = p2 := by
  intro p1
  induction p1 with
  | nil =>
    intro p2 q _ halpha2 hlift
    cases p2 with
    | nil => rfl
    | cons a2 r2 =>
      exfalso
      obtain ⟨⟨q2, e2⟩, hstep2⟩ := filtStep_total hG q (halpha2 a2 (by simp))
      simp only [liftPath, hstep2] at hlift
      cases hlift
  | cons a1 r1 ih =>
    intro p2 q halpha1 halpha2 hlift
    obtain ⟨⟨q1, e1⟩, hstep1⟩ := filtStep_total hG q (halpha1 a1 (by simp))
    cases p2 with
    | nil =>
      exfalso
      simp only [liftPath, hstep1] at hlift
      cases hlift
    | cons a2 r2 =>
      obtain ⟨⟨q2, e2⟩, hstep2⟩ := filtStep_total hG q (halpha2 a2 (by simp))
      simp only [liftPath, hstep1, hstep2, List.cons.injEq, Arc.mk.injEq] at hlift
      obtain ⟨⟨hil, hol, hwm, hdd⟩, htail⟩ := hlift
      have hq1 : q1 < pairs.length + 1 := stOk_lt hG (filtStep_stOk hstep1)
      have hq2 : q2 < pairs.length + 1 := stOk_lt hG (filtStep_stOk hstep2)
      have hw : a1.weight = a2.weight := by
        simpa [mul_one] using hwm
      obtain ⟨hde, hqe⟩ := enc_inj hq1 hq2 hdd
      have hstep2b : filtStep b pairs q a2.olabel = some (q1, e1) := by
        rw [hstep2, hqe, hol]
      have holab : a1.olabel = a2.olabel := filtStep_inj hG hstep1 hstep2b
      have ha12 : a1 = a2 := by
        obtain ⟨il1, ol1, w1, d1⟩ := a1
        obtain ⟨il2, ol2, w2, d2⟩ := a2
        simp only at hil holab hw hde
        rw [hil, holab, hw, hde]
      rw [ha12]
      rw [ha12] at halpha1
      have htail2 : liftPath b pairs (pairs.length + 1) q1 r1
          = liftPath b pairs (pairs.length + 1) q1 r2 := by
        rw [htail, hqe]
      rw [ih r2 q1 (fun arc h => halpha1 arc (by simp [h]))
        (fun arc h => halpha2 arc (by simp [h])) htail2]

theorem filterConsPos {p : Int → Bool} {x : Int} (l : List Int) (h : p x = true) :
    (x :: l).filter p = x :: l.filter p := by
  simp [List.filter_cons, h]

theorem filterConsNeg {p : Int → Bool} {x : Int} (l : List Int) (h : p x = false) :
    (x :: l).filter p = l.filter p := by
  simp [List.filter_cons, h]

theorem emitFrom_cons (b prev x : Int) (w : List Int) :
    emitFrom b prev (x :: w)
      = (if x = b ∨ x = prev then 0 else x) :: emitFrom b x w := by
  simp only [emitFrom]
  by_cases h : x = b
  · rw [if_pos h, h]
  · rw [if_neg h]

theorem run_emit {pairs : List (Int × Nat)} {b : Int} (hG : GoodPairs pairs b) :
    ∀ (w : List Int) (q : Nat) (prev : Int),
      StPrev pairs b q prev →
      (∀ x ∈ w, x = b ∨ ∃ i, (x, i) ∈ pairs) →
      ∃ qf, filtRun b pairs q w = some (qf, emitFrom b prev w) := by
  intro w
  induction w with
  | nil => intro q prev _ _; exact ⟨q, rfl⟩
  | cons x w ih =>
    intro q prev hsp halpha
    rw [emitFrom_cons]
    rcases halpha x (by simp) with hxb | ⟨i, hi⟩
    · obtain ⟨qf, hrun⟩ := ih 0 x (Or.inl ⟨hxb, rfl⟩) (fun y hy => halpha y (by simp [hy]))
      refine ⟨qf, ?_⟩
      have hstep : filtStep b pairs q x = some (0, 0) := by
        rw [hxb]; exact filtStep_blank b pairs q
      simp only [filtRun, hstep, hrun, if_pos (Or.inl hxb)]
    · have hxb : x ≠ b := hG.key_ne_b x i hi
      have hlk : lookupSym pairs x = some i := lookupSym_mem pairs x i hG.key_nodup hi
      by_cases hiq : i = q
      · have hstep : filtStep b pairs q x = some (q, 0) := filtStep_self (hiq ▸ hlk) hxb
        have hxprev : x = prev := by
          rcases hsp with ⟨_, hq0⟩ | hp
          · exfalso
            have := (hG.bounds x i hi).1
            omega
          · exact hG.val_inj x prev q (hiq ▸ hi) hp
        obtain ⟨qf, hrun⟩ := ih q x (Or.inr (hiq ▸ hi)) (fun y hy => halpha y (by simp [hy]))
        refine ⟨qf, ?_⟩
        simp only [filtRun, hstep, hrun, if_pos (Or.inr hxprev)]
      · have hstep : filtStep b pairs q x = some (i, x) := filtStep_move hlk hxb hiq
        have hxprev : x ≠ prev := by
          intro heq
          rcases hsp with ⟨hpb, _⟩ | hp
          · exact hxb (heq ▸ hpb)
          · exact hiq (hG.key_inj hi (heq ▸ hp))
        obtain ⟨qf, hrun⟩ := ih i x (Or.inr hi) (fun y hy => halpha y (by simp [hy]))
        refine ⟨qf, ?_⟩
        have hcond : ¬(x = b ∨ x = prev) := by
          rintro (h | h)
          · exact hxb h
          · exact hxprev h
        simp only [filtRun, hstep, hrun, if_neg hcond]

theorem dedupFrom_length_le : ∀ (w : List Int) (prev : Int),
    (dedupFrom prev w).length ≤ w.length := by
  intro w
  induction w with
  | nil => intro prev; simp [dedupFrom]
  | cons x w ih =>
    intro prev
    simp only [dedupFrom, List.length_cons]
    split
    · exact Nat.le_succ_of_le (ih x)
    · simpa using Nat.succ_le_succ (ih x)

theorem dedupFrom_eq_of_length : ∀ (w : List Int) (prev : Int),
    (dedupFrom prev w).length = w.length → dedupFrom prev w = w := by
  intro w
  induction w with
  | nil => intro prev _; rfl
  | cons x w ih =>
    intro prev hlen
    simp only [dedupFrom] at hlen ⊢
    by_cases hxp : x = prev
    · exfalso
      rw [if_pos hxp] at hlen
      have := dedupFrom_length_le w x
      simp only [List.length_cons] at hlen
      omega
    · rw [if_neg hxp] at hlen ⊢
      simp only [List.length_cons] at hlen
      rw [ih x (by omega)]

theorem emitFrom_filter : ∀ (w : List Int) (prev b : Int), (∀ x ∈ w, x ≠ 0) →
    (emitFrom b prev w).filter (fun x => decide (x ≠ 0))
      = (dedupFrom prev w).filter (fun x => decide (x ≠ b)) := by
  intro w
  induction w with
  | nil => intro prev b _; rfl
  | cons x w ih =>
    intro prev b hnz
    have hx0 : x ≠ 0 := hnz x (by simp)
    have htail := ih x b (fun y hy => hnz y (by simp [hy]))
    rw [emitFrom_cons]
    by_cases hxp : x = prev
    · rw [show dedupFrom prev (x :: w) = dedupFrom x w by simp [dedupFrom, hxp]]
      rw [if_pos (Or.inr hxp), filterConsNeg _ (by simp), htail]
    · rw [show dedupFrom prev (x :: w) = x :: dedupFrom x w by simp [dedupFrom, hxp]]
      by_cases hxb : x = b
      · rw [if_pos (Or.inl hxb), filterConsNeg _ (by simp),
          filterConsNeg _ (by simp [hxb]), htail]
      · rw [if_neg (by simp [hxb, hxp]), filterConsPos _ (by simp [hx0]),
          filterConsPos _ (by simp [hxb]), htail]

theorem emitFrom_no_zero : ∀ (w : List Int) (prev b : Int), (∀ x ∈ w, x ≠ 0) →
    ((0 : Int) ∉ emitFrom b prev w ↔ (b ∉ w ∧ dedupFrom prev w = w)) := by
  intro w
  induction w with
  | nil => intro prev b _; simp [emitFrom, dedupFrom]
  | cons x w ih =>
    intro prev b hnz
    have hx0 : x ≠ 0 := hnz x (by simp)
    have htail := ih x b (fun y hy => hnz y (by simp [hy]))
    rw [emitFrom_cons]
    by_cases hcond : x = b ∨ x = prev
    · rw [if_pos hcond]
      constructor
      · intro h
        exact absurd (List.mem_cons_self 0 _) h
      · rintro ⟨hbm, hded⟩
        exfalso
        rcases hcond with h | h
        · exact hbm (by rw [← h]; exact List.mem_cons_self x w)
        · rw [show dedupFrom prev (x :: w) = dedupFrom x w by simp [dedupFrom, h]] at hded
          have h1 := congrArg List.length hded
          have h2 := dedupFrom_length_le w x
          simp only [List.length_cons] at h1
          omega
    · rw [if_neg hcond]
      push_neg at hcond
      rw [show dedupFrom prev (x :: w) = x :: dedupFrom x w by simp [dedupFrom, hcond.2]]
      constructor
      · intro h
        have hrest : (0 : Int) ∉ emitFrom b x w := by
          intro hm
          exact h (List.mem_cons_of_mem _ hm)
        obtain ⟨hbw, hded⟩ := htail.mp hrest
        refine ⟨?_, ?_⟩
        · intro hm
          rcases List.mem_cons.mp hm with hm | hm
          · exact hcond.1 hm.symm
          · exact hbw hm
        · rw [hded]
      · rintro ⟨hbm, hded⟩
        intro hm
        rcases List.mem_cons.mp hm with hm | hm
        · exact hx0 hm.symm
        · have hbw : b ∉ w := fun h2 => hbm (List.mem_cons_of_mem _ h2)
          have hded2 : dedupFrom x w = w := by
            rw [List.cons.injEq] at hded
            exact hded.2
          exact (htail.mpr ⟨hbw, hded2⟩) hm

theorem emitFrom_eq_self : ∀ (w : List Int) (prev b : Int), (∀ x ∈ w, x ≠ 0) →
    (0 : Int) ∉ emitFrom b prev w → emitFrom b prev w = w := by
  intro w
  induction w with
  | nil => intro prev b _ _; rfl
  | cons x w ih =>
    intro prev b hnz h0
    rw [emitFrom_cons] at h0 ⊢
    simp only [List.mem_cons, not_or] at h0
    by_cases hcond : x = b ∨ x = prev
    · exfalso
      rw [if_pos hcond] at h0
      exact h0.1 rfl
    · rw [if_neg hcond]
      rw [if_neg hcond] at h0
      rw [ih x b (fun y hy => hnz y (by simp [hy])) h0.2]

theorem collapseCTC_eq_self : ∀ (w : List Int) (b : Int),
    (collapseCTC b w = w ↔ (b ∉ w ∧ dedupFrom b w = w)) := by
  intro w b
  constructor
  · intro h
    simp only [collapseCTC] at h
    have h1 : w.length ≤ (dedupFrom b w).length := by
      have := congrArg List.length h
      have h2 := List.length_filter_le (fun x => decide (x ≠ b)) (dedupFrom b w)
      omega
    have h2 := dedupFrom_length_le w b
    have hded : dedupFrom b w = w := dedupFrom_eq_of_length w b (by omega)
    rw [hded] at h
    refine ⟨?_, hded⟩
    intro hbw
    have := List.filter_eq_self.mp h b hbw
    simp at this
  · rintro ⟨hbw, hded⟩
    simp only [collapseCTC, hded]
    apply List.filter_eq_self.mpr
    intro a ha
    simp only [decide_eq_true_eq]
    intro heq
    exact hbw (heq ▸ ha)

theorem prune_start {W : Type} (M : WFST W) (F : Nat) : (prune M F).start = M.start := rfl

theorem prune_arcsOf_pos {W : Type} (M : WFST W) (F : Nat) (s : Nat)
    (h : s ∈ reachList M F) : (prune M F).arcsOf s = M.arcsOf s := by
  simp [prune, h]

theorem prune_final_eq {W : Type} (M : WFST W) (F : Nat) (t : Nat)
    (h : t ∈ reachList M F) : (prune M F).finalOf t = M.finalOf t := by
  simp [prune, h]

theorem prune_reachList_congr {W : Type} (M : WFST W) (F : Nat) :
    ∀ n, ∀ x ∈ reachList (prune M F) n, x ∈ reachList M n := by
  intro n
  induction n with
  | zero => intro x hx; simpa [reachList, prune] using hx
  | succ n ih =>
    intro x hx
    simp only [reachList, List.mem_dedup, List.mem_append, List.mem_flatMap,
      List.mem_map] at hx ⊢
    rcases hx with hx | ⟨s, hs, a, ha, hd⟩
    · exact Or.inl (ih x hx)
    · simp only [prune] at ha
      split at ha
      · exact Or.inr ⟨s, ih s hs, a, ha, hd⟩
      · simp at ha

theorem isPath_prune_of {W : Type} (M : WFST W) (F : Nat) :
    ∀ (p : List (Arc W)) (s t : Nat), isPath (prune M F) s p t → isPath M s p t := by
  intro p
  induction p with
  | nil => intro s t h; exact h
  | cons a p ih =>
    intro s t h
    refine ⟨?_, ih a.dest t h.2⟩
    have := h.1
    simp only [prune] at this
    split at this
    · exact this
    · simp at this

theorem isPath_prune_to {W : Type} (M : WFST W) (F : Nat) :
    ∀ (p : List (Arc W)) (s t k : Nat), isPath M s p t → s ∈ reachList M k →
      k + p.length ≤ F → isPath (prune M F) s p t := by
  intro p
  induction p with
  | nil => intro s t k h _ _; exact h
  | cons a p ih =>
    intro s t k h hs hk
    have hsF : s ∈ reachList M F := reachList_le M (by omega) s hs
    refine ⟨?_, ?_⟩
    · simp only [prune, if_pos hsF]
      exact h.1
    · have hdest : a.dest ∈ reachList M (k + 1) := reachList_step M hs h.1
      exact ih a.dest t (k + 1) h.2 hdest (by simp only [List.length_cons] at hk; omega)

theorem accepted_prune_iff {W : Type} (M : WFST W) (F : Nat) (hB : Bounded M F) :
    ∀ p, accepted (prune M F) p ↔ accepted M p := by
  intro p
  simp only [accepted, prune_start]
  constructor
  · rintro ⟨hpath, hfin⟩
    have hpath2 := isPath_prune_of M F p M.start (pathEnd M.start p) hpath
    refine ⟨hpath2, ?_⟩
    have hend : pathEnd M.start p ∈ reachList M F := by
      have h1 := isPath_start_reach M p (pathEnd M.start p) hpath2
      exact reachList_le M (Nat.le_of_lt (hB p (pathEnd M.start p) hpath2)) _ h1
    rwa [prune_final_eq M F _ hend] at hfin
  · rintro ⟨hpath, hfin⟩
    have hlen : p.length < F := hB p (pathEnd M.start p) hpath
    have hpath2 : isPath (prune M F) M.start p (pathEnd M.start p) := by
      apply isPath_prune_to M F p M.start (pathEnd M.start p) 0 hpath
      · simp [reachList]
      · omega
    refine ⟨hpath2, ?_⟩
    have hend : pathEnd M.start p ∈ reachList M F := by
      have h1 := isPath_start_reach M p (pathEnd M.start p) hpath
      exact reachList_le M (Nat.le_of_lt hlen) _ h1
    rwa [prune_final_eq M F _ hend]

theorem composeFull_proj {W : Type} [Monoid W] {A C : WFST W}
    (hC : ∀ c arc, arc ∈ C.arcsOf c → arc.dest < C.numStates) :
    ∀ (P : List (Arc W)) (a c : Nat), c < C.numStates →
      isPath (composeFull A C) (a * C.numStates + c) P
        (pathEnd (a * C.numStates + c) P) →
      ∃ p cf, isPath A a p (pathEnd a p) ∧ p.length = P.length ∧ cf < C.numStates ∧
        pathEnd (a * C.numStates + c) P = pathEnd a p * C.numStates + cf := by
  intro P
  induction P with
  | nil =>
    intro a c hc _
    exact ⟨[], c, rfl, rfl, hc, rfl⟩
  | cons Parc P2 ih =>
    intro a c hc hpath
    have hmem := hpath.1
    rw [composeFull_arc_iff, encdec_div hc, encdec_mod hc] at hmem
    obtain ⟨aArc, ha, cArc, hcmem, _, heq⟩ := hmem
    have hcd : cArc.dest < C.numStates := hC c cArc hcmem
    have hdest : Parc.dest = aArc.dest * C.numStates + cArc.dest := by rw [heq]
    have htail : isPath (composeFull A C) (aArc.dest * C.numStates + cArc.dest) P2
        (pathEnd (aArc.dest * C.numStates + cArc.dest) P2) := by
      have h2 : isPath (composeFull A C) Parc.dest P2 (pathEnd Parc.dest P2) := hpath.2
      rwa [hdest] at h2
    obtain ⟨p2, cf, hp2, hlen, hcf, hend⟩ := ih aArc.dest cArc.dest hcd htail
    refine ⟨aArc :: p2, cf, ⟨ha, hp2⟩, by simp [hlen], hcf, ?_⟩
    rw [pathEnd_cons, hdest]
    exact hend


theorem acyclic_path_nodup {W : Type} {M : WFST W} (hA : Acyclic M) :
    ∀ (p : List (Arc W)) (s t : Nat), isPath M s p t →
      (s :: p.map (fun a => a.dest)).Nodup := by
  intro p
  induction p with
  | nil => intro s t _; simp
  | cons a p ih =>
    intro s t h
    have htail := ih a.dest t h.2
    simp only [List.map_cons, List.nodup_cons] at htail ⊢
    refine ⟨?_, htail⟩
    intro hmem
    rcases List.mem_cons.mp hmem with hs | hs
    · have hcyc : isPath M s [a] s := ⟨h.1, hs.symm⟩
      have := hA s [a] hcyc
      simp at this
    · rcases List.mem_map.mp hs with ⟨a2, ha2, hd2⟩
      obtain ⟨p1, p2, hp12⟩ := List.append_of_mem ha2
      have hfull : isPath M s ((a :: p1 ++ [a2]) ++ p2) t := by
        rw [hp12] at h
        have hl : (a :: p1 ++ [a2]) ++ p2 = a :: (p1 ++ a2 :: p2) := by simp
        rw [hl]
        exact h
      rw [isPath_append] at hfull
      have hpre := hfull.1
      have hendpre : pathEnd s (a :: p1 ++ [a2]) = s := by
        rw [show a :: p1 ++ [a2] = (a :: p1) ++ [a2] from rfl, pathEnd_append]
        simp [pathEnd, hd2]
      rw [hendpre] at hpre
      have := hA s (a :: p1 ++ [a2]) hpre
      simp at this

theorem bounded_composeFull {W : Type} [Monoid W] {A C : WFST W} (hWF : WF A)
    (hAcy : Acyclic A)
    (hC : ∀ c arc, arc ∈ C.arcsOf c → arc.dest < C.numStates)
    (hCs : C.start < C.numStates) :
    Bounded (composeFull A C) (A.numStates * C.numStates) := by
  intro P t hpath
  have hstart : (composeFull A C).start = A.start * C.numStates + C.start := rfl
  rw [hstart] at hpath
  have hend := isPath_end hpath
  rw [hend] at hpath
  obtain ⟨p, cf, hp, hlen, _, _⟩ := composeFull_proj hC P A.start C.start hCs hpath
  have hnodup := acyclic_path_nodup hAcy p A.start (pathEnd A.start p) hp
  have hsub : (A.start :: p.map (fun a => a.dest)) ⊆ A.states := by
    intro x hx
    rcases List.mem_cons.mp hx with hx | hx
    · rw [hx]; exact hWF.start_mem
    · rcases List.mem_map.mp hx with ⟨a2, ha2, hd⟩
      obtain ⟨p1, p2, hp12⟩ := List.append_of_mem ha2
      have hp3 : isPath A A.start (p1 ++ a2 :: p2) (pathEnd A.start p) := by
        rw [← hp12]
        exact hp
      have hfull : isPath A A.start ((p1 ++ [a2]) ++ p2) (pathEnd A.start p) := by
        have hl : (p1 ++ [a2]) ++ p2 = p1 ++ a2 :: p2 := by simp
        rw [hl]
        exact hp3
      rw [isPath_append, isPath_append] at hfull
      rcases hfull.1.2 with ⟨hmem, _⟩
      rw [← hd]
      exact hWF.closed _ a2 hmem
  have hle : (A.start :: p.map (fun a => a.dest)).length ≤ A.states.length :=
    List.Subperm.length_le (List.subperm_of_subset hnodup hsub)
  simp only [List.length_cons, List.length_map] at hle
  have hplen : p.length < A.numStates := by
    simp only [WFST.numStates]
    omega
  calc P.length = p.length := hlen.symm
    _ < A.numStates := hplen
    _ ≤ A.numStates * C.numStates := Nat.le_mul_of_pos_right _ (by omega)

theorem acyclic_composeFull {W : Type} [Monoid W] {A C : WFST W} (hAcy : Acyclic A)
    (hC : ∀ c arc, arc ∈ C.arcsOf c → arc.dest < C.numStates)
    (hCn : 0 < C.numStates) :
    Acyclic (composeFull A C) := by
  intro s P hpath
  have hmod : s % C.numStates < C.numStates := Nat.mod_lt s hCn
  have hds : s / C.numStates * C.numStates + s % C.numStates = s := by
    rw [Nat.mul_comm]
    exact Nat.div_add_mod s C.numStates
  have hpe : pathEnd s P = s := (isPath_end hpath).symm
  have hpath2 : isPath (composeFull A C)
      (s / C.numStates * C.numStates + s % C.numStates) P
      (pathEnd (s / C.numStates * C.numStates + s % C.numStates) P) := by
    rw [hds, hpe]
    exact hpath
  obtain ⟨p, cf, hp, hlen, hcf, hend2⟩ :=
    composeFull_proj hC P (s / C.numStates) (s % C.numStates) hmod hpath2
  rw [hds, hpe] at hend2
  have henc : s / C.numStates * C.numStates + s % C.numStates
      = pathEnd (s / C.numStates) p * C.numStates + cf := by
    rw [hds]
    exact hend2
  obtain ⟨ha, _⟩ := enc_inj hmod hcf henc
  rw [← ha] at hp
  have hpnil := hAcy (s / C.numStates) p hp
  have hP0 : P.length = 0 := by rw [← hlen, hpnil]; simp
  exact List.eq_nil_of_length_eq_zero hP0

theorem acyclic_prune {W : Type} {M : WFST W} (F : Nat) (hAcy : Acyclic M) :
    Acyclic (prune M F) := by
  intro s p hpath
  exact hAcy s p (isPath_prune_of M F p s s hpath)

theorem composeFull_states_nodup {W : Type} [Monoid W] {A C : WFST W}
    (hA : A.states.Nodup) (hCnd : C.states.Nodup)
    (hCr : ∀ c ∈ C.states, c < C.numStates) :
    (composeFull A C).states.Nodup := by
  have heq : (composeFull A C).states
      = (List.product A.states C.states).map (fun p => p.1 * C.numStates + p.2) := by
    simp only [composeFull, List.product, List.map_flatMap, List.map_map]
    rfl
  rw [heq]
  apply List.Nodup.map_on
  · intro x hx y hy hxy
    rcases List.mem_product.mp hx with ⟨hx1, hx2⟩
    rcases List.mem_product.mp hy with ⟨hy1, hy2⟩
    obtain ⟨h1, h2⟩ := enc_inj (hCr x.2 hx2) (hCr y.2 hy2) hxy
    obtain ⟨xa, xc⟩ := x
    obtain ⟨ya, yc⟩ := y
    simp only at h1 h2
    rw [h1, h2]
  · exact List.Nodup.product hA hCnd

theorem WF_prune_composeFull {W : Type} [Monoid W] {A C : WFST W} {F : Nat}
    (hWF : WF A) (hCcl : ∀ c arc, arc ∈ C.arcsOf c → arc.dest ∈ C.states)
    (hCr : ∀ c ∈ C.states, c < C.numStates) (hCs : C.start ∈ C.states)
    (hCnd : C.states.Nodup) (hB : Bounded (composeFull A C) F) :
    WF (prune (composeFull A C) F) := by
  refine ⟨?_, ?_, ?_⟩
  · simp only [prune, List.mem_filter, decide_eq_true_eq]
    constructor
    · rw [composeFull_states_iff]
      exact ⟨A.start, hWF.start_mem, C.start, hCs, rfl⟩
    · exact start_mem_reachList (composeFull A C) F
  · simp only [prune]
    exact List.Nodup.filter _ (composeFull_states_nodup hWF.nodup hCnd hCr)
  · intro s arc harc
    simp only [prune] at harc
    split at harc
    · rename_i hreach
      simp only [prune, List.mem_filter, decide_eq_true_eq]
      have harc2 := harc
      rw [composeFull_arc_iff] at harc
      obtain ⟨aArc, ha, cArc, hc, hmatch, heq⟩ := harc
      have hdest : arc.dest = aArc.dest * C.numStates + cArc.dest := by rw [heq]
      constructor
      · rw [composeFull_states_iff, hdest]
        exact ⟨aArc.dest, hWF.closed _ aArc ha, cArc.dest, hCcl _ cArc hc, rfl⟩
      · obtain ⟨p, hp, hplen⟩ := reachList_path (composeFull A C) F s hreach
        have hext : isPath (composeFull A C) (composeFull A C).start (p ++ [arc])
            arc.dest := by
          rw [isPath_snoc]
          refine ⟨?_, ?_, rfl⟩
          · rwa [← isPath_end hp]
          · rw [← isPath_end hp]
            exact harc2
        have hlen2 := hB (p ++ [arc]) arc.dest hext
        have hreach2 := isPath_start_reach (composeFull A C) (p ++ [arc]) arc.dest hext
        have hlen3 : (p ++ [arc]).length ≤ F := Nat.le_of_lt hlen2
        exact reachList_le (composeFull A C) hlen3 _ hreach2
    · simp at harc

theorem filterC_dest_lt {W : Type} [Monoid W] {pairs : List (Int × Nat)} {b : Int}
    (hG : GoodPairs pairs b) :
    ∀ c arc, arc ∈ (filterC pairs b : WFST W).arcsOf c →
      arc.dest < (filterC pairs b : WFST W).numStates := by
  intro c arc h
  rw [filterC_arc_iff hG] at h
  rw [filterC_numStates]
  exact stOk_lt hG (filtStep_stOk h.2.2)

theorem filterC_closed {W : Type} [Monoid W] {pairs : List (Int × Nat)} {b : Int}
    (hG : GoodPairs pairs b) :
    ∀ c arc, arc ∈ (filterC pairs b : WFST W).arcsOf c →
      arc.dest ∈ (filterC pairs b : WFST W).states := by
  intro c arc h
  have := filterC_dest_lt hG c arc h
  rw [filterC_numStates] at this
  simp only [filterC, List.mem_range]
  exact this

theorem filterC_states_lt {W : Type} [Monoid W] (pairs : List (Int × Nat)) (b : Int) :
    ∀ c ∈ (filterC pairs b : WFST W).states, c < (filterC pairs b : WFST W).numStates := by
  intro c hc
  rw [filterC_numStates]
  simp only [filterC, List.mem_range] at hc
  exact hc

theorem filterC_start_mem {W : Type} [Monoid W] (pairs : List (Int × Nat)) (b : Int) :
    (filterC pairs b : WFST W).start ∈ (filterC pairs b : WFST W).states := by
  simp [filterC]

theorem filterC_states_nodup {W : Type} [Monoid W] (pairs : List (Int × Nat)) (b : Int) :
    (filterC pairs b : WFST W).states.Nodup := by
  simp only [filterC]
  exact List.nodup_range _

theorem filterC_start_lt {W : Type} [Monoid W] (pairs : List (Int × Nat)) (b : Int) :
    (filterC pairs b : WFST W).start < (filterC pairs b : WFST W).numStates := by
  rw [filterC_numStates]
  simp [filterC]

theorem composeFull_final_isSome {W : Type} [Monoid W] (A C : WFST W) (s : Nat)
    (h : ((composeFull A C).finalOf s).isSome = true) :
    (A.finalOf (s / C.numStates)).isSome = true := by
  simp only [composeFull] at h
  rcases ha : A.finalOf (s / C.numStates) with _ | wa
  · rw [ha] at h
    simp at h
  · simp

theorem foldr_mul_one {W : Type} [Monoid W] :
    ∀ (ws : List W) (d : W),
      (ws.map (fun w => w * 1)).foldr (fun x y => x * y) (d * 1)
        = ws.foldr (fun x y => x * y) d := by
  intro ws
  induction ws with
  | nil => intro d; simp [mul_one]
  | cons w ws ih =>
    intro d
    simp only [List.map_cons, List.foldr_cons]
    rw [ih, mul_one]

theorem path_alphabet {W : Type} {M : WFST W} {b : Int} (hWF : WF M) :
    ∀ (p : List (Arc W)) (s t : Nat), s ∈ M.states → isPath M s p t →
      (∀ arc ∈ p, arc.olabel ≠ 0) →
      ∀ arc ∈ p, arc.olabel = b ∨ ∃ i, (arc.olabel, i) ∈ symbol2state M b := by
  intro p
  induction p with
  | nil => intro s t _ _ _ arc h; simp at h
  | cons a p ih =>
    intro s t hs hpath hnz arc harc
    rcases List.mem_cons.mp harc with h | h
    · subst h
      by_cases hab : arc.olabel = b
      · exact Or.inl hab
      · right
        have hcol : arc.olabel ∈ collect M b :=
          collect_complete M b s arc hs hpath.1 hab (hnz arc (by simp))
        exact mkPairs_mem_of_key (collect M b) 0 arc.olabel hcol
    · exact ih a.dest t (hWF.closed s a hpath.1) hpath.2
        (fun a2 h2 => hnz a2 (by simp [h2])) arc h

theorem removeCTC_def {W : Type} [Monoid W] (M : WFST W) (b : Int) :
    RemoveCTCBlankFromLattice M b
      = prune (composeFull M (filterC (symbol2state M b) b))
          (M.numStates * (filterC (symbol2state M b) b : WFST W).numStates) := rfl

theorem removeCTC_start {W : Type} [Monoid W] (M : WFST W) (b : Int) :
    (RemoveCTCBlankFromLattice M b).start
      = M.start * ((symbol2state M b).length + 1) + 0 := by
  rw [removeCTC_def]
  rw [prune_start]
  rw [composeFull_start, filterC_numStates]
  rfl

theorem removeCTC_fwd {W : Type} [Monoid W] {M : WFST W} {b : Int}
    (hWF : WF M) (hAcy : Acyclic M) (p : List (Arc W))
    (hacc : accepted M p) (hnz : ∀ arc ∈ p, arc.olabel ≠ 0) :
    accepted (RemoveCTCBlankFromLattice M b)
      (liftPath b (symbol2state M b) ((symbol2state M b).length + 1) 0 p) ∧
    outWord (liftPath b (symbol2state M b) ((symbol2state M b).length + 1) 0 p)
      = collapseCTC b (p.map (fun a => a.olabel)) ∧
    (liftPath b (symbol2state M b) ((symbol2state M b).length + 1) 0 p).map
        (fun a => a.ilabel) = p.map (fun a => a.ilabel) ∧
    (liftPath b (symbol2state M b) ((symbol2state M b).length + 1) 0 p).map
        (fun a => a.olabel) = emitFrom b b (p.map (fun a => a.olabel)) ∧
    pathWeight (RemoveCTCBlankFromLattice M b)
        (liftPath b (symbol2state M b) ((symbol2state M b).length + 1) 0 p)
      = pathWeight M p := by
  have hG := goodPairs_symbol2state M b
  have halpha := @path_alphabet W M b hWF p M.start (pathEnd M.start p)
    hWF.start_mem hacc.1 hnz
  obtain ⟨qf, es, hrun, hstf, hipath, hpend, him, hom, hwm⟩ :=
    liftPath_spec hG p M.start 0 hacc.1 halpha (stOk_zero _)
  have hqf : qf < (symbol2state M b).length + 1 := stOk_lt hG hstf
  have hB : Bounded (composeFull M (filterC (symbol2state M b) b))
      (M.numStates * (filterC (symbol2state M b) b : WFST W).numStates) :=
    bounded_composeFull hWF hAcy (filterC_dest_lt hG) (filterC_start_lt _ _)
  have hstart : (composeFull M (filterC (symbol2state M b) b)).start
      = M.start * ((symbol2state M b).length + 1) + 0 := by
    rw [composeFull_start, filterC_numStates]
    rfl
  have hw0 : ∀ x ∈ p.map (fun a => a.olabel), x ≠ 0 := by
    intro x hx
    rcases List.mem_map.mp hx with ⟨arc, harc, hxe⟩
    rw [← hxe]
    exact hnz arc harc
  have halphaw : ∀ x ∈ p.map (fun a => a.olabel),
      x = b ∨ ∃ i, (x, i) ∈ symbol2state M b := by
    intro x hx
    rcases List.mem_map.mp hx with ⟨arc, harc, hxe⟩
    rw [← hxe]
    exact halpha arc harc
  obtain ⟨wa, hwa⟩ := Option.isSome_iff_exists.mp hacc.2
  have hfinE : (composeFull M (filterC (symbol2state M b) b)).finalOf
      (pathEnd M.start p * ((symbol2state M b).length + 1) + qf) = some (wa * 1) := by
    rw [composeFull_final_iff]
    refine ⟨wa, 1, ?_, ?_, rfl⟩
    · rw [filterC_numStates, encdec_div hqf]
      exact hwa
    · rw [filterC_numStates, encdec_mod hqf]
      exact filterC_final _ _ qf hqf
  have haccE : accepted (composeFull M (filterC (symbol2state M b) b))
      (liftPath b (symbol2state M b) ((symbol2state M b).length + 1) 0 p) := by
    constructor
    · rw [hstart, hpend]
      exact hipath
    · rw [hstart, hpend, hfinE]
      rfl
  have haccOut : accepted (RemoveCTCBlankFromLattice M b)
      (liftPath b (symbol2state M b) ((symbol2state M b).length + 1) 0 p) := by
    rw [removeCTC_def]
    exact (accepted_prune_iff _ _ hB _).mpr haccE
  have hes : es = emitFrom b b (p.map (fun a => a.olabel)) := by
    obtain ⟨qf2, hrun2⟩ := run_emit hG (p.map (fun a => a.olabel)) 0 b
      (Or.inl ⟨rfl, rfl⟩) halphaw
    rw [hrun] at hrun2
    exact congrArg Prod.snd (Option.some.inj hrun2)
  have houtw : outWord (liftPath b (symbol2state M b) ((symbol2state M b).length + 1) 0 p)
      = collapseCTC b (p.map (fun a => a.olabel)) := by
    simp only [outWord, collapseCTC]
    rw [hom, hes]
    exact emitFrom_filter _ b b hw0
  have hwgt : pathWeight (RemoveCTCBlankFromLattice M b)
      (liftPath b (symbol2state M b) ((symbol2state M b).length + 1) 0 p)
      = pathWeight M p := by
    have hpathE := haccE.1
    have hlenL := hB _ _ hpathE
    have hr1 := isPath_start_reach _ _ _ hpathE
    have hreach := reachList_le (composeFull M (filterC (symbol2state M b) b))
      (Nat.le_of_lt hlenL) _ hr1
    rw [hstart, hpend] at hreach
    simp only [pathWeight]
    rw [removeCTC_start, hpend, removeCTC_def, prune_final_eq _ _ _ hreach, hfinE, hwa]
    simp only [Option.getD_some]
    rw [hwm]
    have hmm : p.map (fun arc => arc.weight * 1)
        = (p.map (fun arc => arc.weight)).map (fun w => w * 1) := by
      rw [List.map_map]
      rfl
    rw [hmm, foldr_mul_one]
  rw [hes] at hom
  exact ⟨haccOut, houtw, him, hom, hwgt⟩

theorem removeCTC_bwd {W : Type} [Monoid W] {M : WFST W} {b : Int}
    (hWF : WF M) (hAcy : Acyclic M) (hb : b ≠ 0) (P : List (Arc W))
    (hacc : accepted (RemoveCTCBlankFromLattice M b) P) :
    ∃ p, accepted M p ∧ (∀ arc ∈ p, arc.olabel ≠ 0) ∧
      P = liftPath b (symbol2state M b) ((symbol2state M b).length + 1) 0 p := by
  have hG := goodPairs_symbol2state M b
  have hB : Bounded (composeFull M (filterC (symbol2state M b) b))
      (M.numStates * (filterC (symbol2state M b) b : WFST W).numStates) :=
    bounded_composeFull hWF hAcy (filterC_dest_lt hG) (filterC_start_lt _ _)
  rw [removeCTC_def] at hacc
  obtain ⟨hpathE, hfinE⟩ := (accepted_prune_iff _ _ hB P).mp hacc
  have hstart : (composeFull M (filterC (symbol2state M b) b)).start
      = M.start * ((symbol2state M b).length + 1) + 0 := by
    rw [composeFull_start, filterC_numStates]
    rfl
  rw [hstart] at hpathE hfinE
  obtain ⟨p, hppath, halpha, hnz, hPlift⟩ :=
    composePath_inv hG hb P M.start 0 (stOk_zero _) hpathE
  refine ⟨p, ⟨hppath, ?_⟩, hnz, hPlift⟩
  obtain ⟨qf, es, hrun, hstf, hipath, hpend, _, _, _⟩ :=
    liftPath_spec hG p M.start 0 hppath halpha (stOk_zero _)
  rw [hPlift, hpend] at hfinE
  have hqf : qf < (symbol2state M b).length + 1 := stOk_lt hG hstf
  have hsome := composeFull_final_isSome M (filterC (symbol2state M b) b) _ hfinE
  rwa [filterC_numStates, encdec_div hqf] at hsome

theorem removeCTC_inj {W : Type} [Monoid W] {M : WFST W} {b : Int} (hWF : WF M)
    (p1 p2 : List (Arc W))
    (h1 : isPath M M.start p1 (pathEnd M.start p1)) (hnz1 : ∀ arc ∈ p1, arc.olabel ≠ 0)
    (h2 : isPath M M.start p2 (pathEnd M.start p2)) (hnz2 : ∀ arc ∈ p2, arc.olabel ≠ 0)
    (heq : liftPath b (symbol2state M b) ((symbol2state M b).length + 1) 0 p1
      = liftPath b (symbol2state M b) ((symbol2state M b).length + 1) 0 p2) :
    p1 = p2 :=
  liftPath_inj (goodPairs_symbol2state M b) p1 p2 0
    (@path_alphabet W M b hWF p1 M.start (pathEnd M.start p1) hWF.start_mem h1 hnz1)
    (@path_alphabet W M b hWF p2 M.start (pathEnd M.start p2) hWF.start_mem h2 hnz2)
    heq

theorem removeCTC_accepts {W : Type} [Monoid W] {M : WFST W} {b : Int}
    (hWF : WF M) (hAcy : Acyclic M) (hb : b ≠ 0) (w : List Int) :
    accepts (RemoveCTCBlankFromLattice M b) w ↔
      ∃ wr, rawAccepts M wr ∧ w = collapseCTC b wr := by
  constructor
  · rintro ⟨P, haccP, houtP⟩
    obtain ⟨p, haccp, hnz, hPlift⟩ := removeCTC_bwd hWF hAcy hb P haccP
    refine ⟨p.map (fun a => a.olabel), ⟨p, haccp, hnz, rfl⟩, ?_⟩
    obtain ⟨_, houtw, _, _, _⟩ := @removeCTC_fwd W _ M b hWF hAcy p haccp hnz
    rw [← houtP, hPlift, houtw]
  · rintro ⟨wr, ⟨p, haccp, hnz, hwr⟩, hw⟩
    obtain ⟨haccL, houtw, _, _, _⟩ := @removeCTC_fwd W _ M b hWF hAcy p haccp hnz
    refine ⟨_, haccL, ?_⟩
    rw [houtw, hwr, ← hw]

theorem removeCTC_rawAccepts {W : Type} [Monoid W] {M : WFST W} {b : Int}
    (hWF : WF M) (hAcy : Acyclic M) (hb : b ≠ 0) (w : List Int) :
    rawAccepts (RemoveCTCBlankFromLattice M b) w ↔
      rawAccepts M w ∧ collapseCTC b w = w := by
  constructor
  · rintro ⟨P, haccP, hnzP, holP⟩
    obtain ⟨p, haccp, hnz, hPlift⟩ := removeCTC_bwd hWF hAcy hb P haccP
    obtain ⟨_, _, _, homE, _⟩ := @removeCTC_fwd W _ M b hWF hAcy p haccp hnz
    have hpnz : ∀ x ∈ p.map (fun a => a.olabel), x ≠ 0 := by
      intro x hx
      rcases List.mem_map.mp hx with ⟨arc, harc, hxe⟩
      rw [← hxe]
      exact hnz arc harc
    have hw0 : (0 : Int) ∉ emitFrom b b (p.map (fun a => a.olabel)) := by
      intro hmem
      rw [← homE, ← hPlift] at hmem
      rcases List.mem_map.mp hmem with ⟨arc, harc, hxe⟩
      exact hnzP arc harc hxe
    obtain ⟨hbnot, hded⟩ := (emitFrom_no_zero _ b b hpnz).mp hw0
    have hemit_id := emitFrom_eq_self _ b b hpnz hw0
    have hweq : w = p.map (fun a => a.olabel) := by
      rw [← holP, hPlift, homE, hemit_id]
    constructor
    · exact ⟨p, haccp, hnz, hweq.symm⟩
    · rw [hweq]
      exact (collapseCTC_eq_self _ b).mpr ⟨hbnot, hded⟩
  · rintro ⟨⟨p, haccp, hnz, hwr⟩, hcoll⟩
    obtain ⟨haccL, _, _, homE, _⟩ := @removeCTC_fwd W _ M b hWF hAcy p haccp hnz
    have hpnz : ∀ x ∈ p.map (fun a => a.olabel), x ≠ 0 := by
      intro x hx
      rcases List.mem_map.mp hx with ⟨arc, harc, hxe⟩
      rw [← hxe]
      exact hnz arc harc
    obtain ⟨hbnot, hded⟩ := (collapseCTC_eq_self w b).mp hcoll
    have hw0 : (0 : Int) ∉ emitFrom b b (p.map (fun a => a.olabel)) := by
      apply (emitFrom_no_zero _ b b hpnz).mpr
      rw [hwr]
      exact ⟨hbnot, hded⟩
    have hemit_id := emitFrom_eq_self _ b b hpnz hw0
    refine ⟨_, haccL, ?_, ?_⟩
    · intro arc harc hzero
      apply hw0
      rw [← homE]
      exact List.mem_map.mpr ⟨arc, harc, hzero⟩
    · rw [homE, hemit_id, hwr]

theorem removeCTC_WF {W : Type} [Monoid W] {M : WFST W} {b : Int}
    (hWF : WF M) (hAcy : Acyclic M) :
    WF (RemoveCTCBlankFromLattice M b) := by
  have hG := goodPairs_symbol2state M b
  rw [removeCTC_def]
  exact WF_prune_composeFull hWF (filterC_closed hG) (filterC_states_lt _ _)
    (filterC_start_mem _ _) (filterC_states_nodup _ _)
    (bounded_composeFull hWF hAcy (filterC_dest_lt hG) (filterC_start_lt _ _))

theorem removeCTC_acyclic {W : Type} [Monoid W] {M : WFST W} {b : Int}
    (hAcy : Acyclic M) :
    Acyclic (RemoveCTCBlankFromLattice M b) := by
  have hG := goodPairs_symbol2state M b
  rw [removeCTC_def]
  apply acyclic_prune
  apply acyclic_composeFull hAcy (filterC_dest_lt hG)
  rw [filterC_numStates]
  omega

theorem acceptor_path_olabel {W : Type} {M : WFST W} (hAcc : Acceptor M) :
    ∀ (p : List (Arc W)) (s t : Nat), isPath M s p t →
      ∀ arc ∈ p, arc.ilabel = arc.olabel := by
  intro p
  induction p with
  | nil => intro s t _ arc h; simp at h
  | cons a p ih =>
    intro s t hpath arc harc
    rcases List.mem_cons.mp harc with h | h
    · subst h
      exact hAcc s arc hpath.1
    · exact ih a.dest t hpath.2 arc h

theorem acceptor_path_labels {W : Type} {M : WFST W} (hAcc : Acceptor M)
    (p : List (Arc W)) (s t : Nat) (hpath : isPath M s p t) :
    p.map (fun a => a.ilabel) = p.map (fun a => a.olabel) := by
  apply List.map_congr_left
  intro arc harc
  exact acceptor_path_olabel hAcc p s t hpath arc harc

theorem filterC_olabel {W : Type} [Monoid W] {pairs : List (Int × Nat)} {b : Int}
    (hG : GoodPairs pairs b) :
    ∀ q cArc, cArc ∈ (filterC pairs b : WFST W).arcsOf q →
      cArc.olabel = 0 ∨ cArc.olabel = cArc.ilabel := by
  intro q cArc h
  rw [filterC_arc_iff hG] at h
  rcases filtStep_emit hG h.2.2 with he | ⟨he, _⟩
  · exact Or.inl he
  · exact Or.inr he

theorem not_accepts_of_dead_start {W : Type} (M : WFST W)
    (h1 : M.arcsOf M.start = []) (h2 : M.finalOf M.start = none) :
    ∀ w, ¬ accepts M w := by
  rintro w ⟨p, ⟨hpath, hfin⟩, _⟩
  cases p with
  | nil =>
    rw [show pathEnd M.start ([] : List (Arc W)) = M.start from rfl, h2] at hfin
    simp at hfin
  | cons a p =>
    have hmem : a ∈ M.arcsOf M.start := hpath.1
    rw [h1] at hmem
    simp at hmem

theorem processAll_ne_blank {W : Type} [Monoid W] [DecidableEq W] (b : Int) :
    ∀ (lats : List (String × WFST W)),
      processAll b lats ≠ Except.error MainError.blankIsEpsilon := by
  intro lats
  induction lats with
  | nil => simp [processAll]
  | cons kv rest ih =>
    obtain ⟨key, lat⟩ := kv
    simp only [processAll]
    split
    · simp
    · split
      · simp
      · rcases hrec : processAll b rest with e | outs
        · rw [hrec] at ih
          simpa using ih
        · simp

theorem exA_WF : WF exA :=
  mkWFST_WF 0 _ (by decide) (by decide)

theorem exA_acceptor : Acceptor exA :=
  mkWFST_acceptor 0 _ (by decide)

theorem exA_acyclic : Acyclic exA :=
  acyclic_of_rank exA id (mkWFST_rank 0 _ id (by decide))

theorem exB_WF : WF exB :=
  mkWFST_WF 0 _ (by decide) (by decide)

theorem exB_acceptor : Acceptor exB :=
  mkWFST_acceptor 0 _ (by decide)

theorem exB_acyclic : Acyclic exB :=
  acyclic_of_rank exB id (mkWFST_rank 0 _ id (by decide))

/-- C1: for every well-formed acceptor, acyclic input automaton and nonzero
blank label, `RemoveCTCBlankFromLattice` accepts as output-label sequences
exactly the collapses (merge maximal runs of identical consecutive labels,
then delete blanks) of the label sequences of the input's epsilon-free
accepted paths; every accepted path of the input maps to an accepted output
path of the same weight, every accepted output path arises from exactly one
such input path, and input paths containing an epsilon-labeled (0) arc are
excluded (the surviving paths all come from epsilon-free input paths). -/
theorem claim_C1_collapse_postcondition {W : Type} [Monoid W] (A : WFST W) (b : Int)
    (hWF : WF A) (hAcc : Acceptor A) (hAcy : Acyclic A) (hb : b ≠ 0) :
    (∀ w, accepts (RemoveCTCBlankFromLattice A b) w ↔
        ∃ p, accepted A p ∧ (∀ arc ∈ p, arc.olabel ≠ 0) ∧
          w = collapseCTC b (p.map (fun a => a.ilabel))) ∧
    (∀ p, accepted A p → (∀ arc ∈ p, arc.olabel ≠ 0) →
        accepted (RemoveCTCBlankFromLattice A b)
          (liftPath b (symbol2state A b) ((symbol2state A b).length + 1) 0 p) ∧
        outWord (liftPath b (symbol2state A b) ((symbol2state A b).length + 1) 0 p)
          = collapseCTC b (p.map (fun a => a.ilabel)) ∧
        pathWeight (RemoveCTCBlankFromLattice A b)
            (liftPath b (symbol2state A b) ((symbol2state A b).length + 1) 0 p)
          = pathWeight A p) ∧
    (∀ P, accepted (RemoveCTCBlankFromLattice A b) P →
        ∃ p, accepted A p ∧ (∀ arc ∈ p, arc.olabel ≠ 0) ∧
          P = liftPath b (symbol2state A b) ((symbol2state A b).length + 1) 0 p) ∧
    (∀ p1 p2, accepted A p1 → (∀ arc ∈ p1, arc.olabel ≠ 0) →
        accepted A p2 → (∀ arc ∈ p2, arc.olabel ≠ 0) →
        liftPath b (symbol2state A b) ((symbol2state A b).length + 1) 0 p1
          = liftPath b (symbol2state A b) ((symbol2state A b).length + 1) 0 p2 →
        p1 = p2) := by
  refine ⟨?_, ?_, ?_, ?_⟩
  · intro w
    rw [removeCTC_accepts hWF hAcy hb]
    constructor
    · rintro ⟨wr, ⟨p, haccp, hnz, hwr⟩, hw⟩
      refine ⟨p, haccp, hnz, ?_⟩
      rw [acceptor_path_labels hAcc p A.start (pathEnd A.start p) haccp.1, hwr, hw]
    · rintro ⟨p, haccp, hnz, hw⟩
      refine ⟨p.map (fun a => a.olabel), ⟨p, haccp, hnz, rfl⟩, ?_⟩
      rw [hw, acceptor_path_labels hAcc p A.start (pathEnd A.start p) haccp.1]
  · intro p haccp hnz
    obtain ⟨hacc2, houtw, _, _, hwgt⟩ := @removeCTC_fwd W _ A b hWF hAcy p haccp hnz
    refine ⟨hacc2, ?_, hwgt⟩
    rw [houtw, ← acceptor_path_labels hAcc p A.start (pathEnd A.start p) haccp.1]
  · intro P haccP
    exact removeCTC_bwd hWF hAcy hb P haccP
  · intro p1 p2 h1 hnz1 h2 hnz2 heq
    exact removeCTC_inj hWF p1 p2 h1.1 hnz1 h2.1 hnz2 heq

theorem claim_C1_collapse_postcondition_witness :
    WF exA ∧ Acceptor exA ∧ Acyclic exA ∧ (1 : Int) ≠ 0 ∧
    (accepts (RemoveCTCBlankFromLattice exA 1) [2] ↔
      ∃ p, accepted exA p ∧ (∀ arc ∈ p, arc.olabel ≠ 0) ∧
        [2] = collapseCTC 1 (p.map (fun a => a.ilabel))) :=
  ⟨exA_WF, exA_acceptor, exA_acyclic, by decide,
    (claim_C1_collapse_postcondition exA 1 exA_WF exA_acceptor exA_acyclic
      (by decide)).1 [2]⟩

/-- C2: for every input automaton and nonzero blank label, the filter `C`
has exactly `n + 1` states numbered `0..n` (`n` = number of distinct
non-blank, non-epsilon output labels, enumerated by `symbol2state`), state
`0` is the start, every state is final with weight One, and its arcs are
exactly: the blank self-loop `(blank, eps)` at `0`; for each table entry
`(s, i)` an arc `(s, s)` from `0` to `i`, a self-loop `(s, eps)` at `i` and
an arc `(blank, eps)` from `i` back to `0`; and for every ordered pair of
distinct symbols an arc `(s2, s2)` from `i` to `j` — all with weight One
and nothing else (in particular no arc for epsilon). -/
theorem claim_C2_filter_structure {W : Type} [Monoid W] (A : WFST W) (b : Int)
    (hb : b ≠ 0) :
    (∀ x, (∃ i, (x, i) ∈ symbol2state A b) ↔
        (x ≠ b ∧ x ≠ 0 ∧ ∃ s ∈ A.states, ∃ a ∈ A.arcsOf s, a.olabel = x)) ∧
    (filterC (symbol2state A b) b : WFST W).states
      = List.range ((symbol2state A b).length + 1) ∧
    (filterC (symbol2state A b) b : WFST W).start = 0 ∧
    (∀ q, q < (symbol2state A b).length + 1 →
      (filterC (symbol2state A b) b : WFST W).finalOf q = some 1) ∧
    (∀ q, ¬ q < (symbol2state A b).length + 1 →
      (filterC (symbol2state A b) b : WFST W).finalOf q = none) ∧
    (∀ q (arc : Arc W), arc ∈ (filterC (symbol2state A b) b : WFST W).arcsOf q ↔
      ((q = 0 ∧ arc = ⟨b, 0, 1, 0⟩) ∨
       (q = 0 ∧ ∃ x i, (x, i) ∈ symbol2state A b ∧ arc = ⟨x, x, 1, i⟩) ∨
       (∃ x, (x, q) ∈ symbol2state A b ∧ arc = ⟨x, 0, 1, q⟩) ∨
       (∃ x, (x, q) ∈ symbol2state A b ∧ arc = ⟨b, 0, 1, 0⟩) ∨
       (∃ x x2 j, (x, q) ∈ symbol2state A b ∧ (x2, j) ∈ symbol2state A b ∧
         x2 ≠ x ∧ arc = ⟨x2, x2, 1, j⟩))) := by
  have hG := goodPairs_symbol2state A b
  refine ⟨?_, rfl, rfl, ?_, ?_, ?_⟩
  · intro x
    have hkeys : x ∈ collect A b ↔ ∃ i, (x, i) ∈ symbol2state A b := by
      constructor
      · intro h
        exact mkPairs_mem_of_key (collect A b) 0 x h
      · rintro ⟨i, hi⟩
        have : x ∈ (symbol2state A b).map Prod.fst := List.mem_map.mpr ⟨(x, i), hi, rfl⟩
        rwa [symbol2state, mkPairs_keys] at this
    rw [← hkeys]
    constructor
    · intro h
      exact collect_sound A b x h
    · rintro ⟨hxb, hx0, s, hs, a, ha, hol⟩
      rw [← hol]
      exact collect_complete A b s a hs ha (hol ▸ hxb) (hol ▸ hx0)
  · intro q hq
    exact filterC_final _ _ q hq
  · intro q hq
    simp [filterC, hq]
  · intro q arc
    rw [filterC_arc_iff hG]
    obtain ⟨il, ol, wt, d⟩ := arc
    constructor
    · rintro ⟨hst, hw, hstep⟩
      simp only at hw hstep
      subst hw
      rcases filtStep_cases hstep with ⟨hib, hr⟩ | ⟨hib, i, hlk, hc⟩
      · have hd : d = 0 := congrArg Prod.fst hr
        have hol : ol = 0 := congrArg Prod.snd hr
        rcases hst with hq0 | ⟨x, hx⟩
        · exact Or.inl ⟨hq0, by rw [hib, hd, hol]⟩
        · exact Or.inr (Or.inr (Or.inr (Or.inl ⟨x, hx, by rw [hib, hd, hol]⟩)))
      · have hmem := lookupSym_some _ il i hlk
        rcases hc with ⟨hiq, hr⟩ | ⟨hiq, hr⟩
        · have hd : d = q := congrArg Prod.fst hr
          have hol : ol = 0 := congrArg Prod.snd hr
          exact Or.inr (Or.inr (Or.inl ⟨il, hiq ▸ hmem, by rw [hd, hol]⟩))
        · have hd : d = i := congrArg Prod.fst hr
          have hol : ol = il := congrArg Prod.snd hr
          rcases hst with hq0 | ⟨x, hx⟩
          · exact Or.inr (Or.inl ⟨hq0, il, i, hmem, by rw [hd, hol]⟩)
          · refine Or.inr (Or.inr (Or.inr (Or.inr ⟨x, il, i, hx, hmem, ?_, by rw [hd, hol]⟩)))
            intro heq
            exact hiq (hG.key_inj (heq ▸ hmem) hx)
    · rintro (⟨hq0, harc⟩ | ⟨hq0, x, i, hmem, harc⟩ | ⟨x, hmem, harc⟩ |
        ⟨x, hmem, harc⟩ | ⟨x, x2, j, hxq, hx2j, hne, harc⟩)
      · rw [harc]
        exact ⟨Or.inl hq0, rfl, filtStep_blank b _ q⟩
      · rw [harc]
        refine ⟨Or.inl hq0, rfl, ?_⟩
        have hxb : x ≠ b := hG.key_ne_b x i hmem
        have hlk := lookupSym_mem _ x i hG.key_nodup hmem
        have hiq : i ≠ q := by
          have := (hG.bounds x i hmem).1
          omega
        exact filtStep_move hlk hxb hiq
      · rw [harc]
        refine ⟨Or.inr ⟨x, hmem⟩, rfl, ?_⟩
        have hxb : x ≠ b := hG.key_ne_b x q hmem
        have hlk := lookupSym_mem _ x q hG.key_nodup hmem
        exact filtStep_self hlk hxb
      · rw [harc]
        exact ⟨Or.inr ⟨x, hmem⟩, rfl, filtStep_blank b _ q⟩
      · rw [harc]
        refine ⟨Or.inr ⟨x, hxq⟩, rfl, ?_⟩
        have hxb : x2 ≠ b := hG.key_ne_b x2 j hx2j
        have hlk := lookupSym_mem _ x2 j hG.key_nodup hx2j
        have hjq : j ≠ q := by
          intro heq
          exact hne (hG.val_inj x2 x q (heq ▸ hx2j) hxq)
        exact filtStep_move hlk hxb hjq

theorem claim_C2_filter_structure_witness :
    (1 : Int) ≠ 0 ∧
    (filterC (symbol2state exA 1) 1 : WFST Nat).states
      = List.range ((symbol2state exA 1).length + 1) :=
  ⟨by decide, (claim_C2_filter_structure exA 1 (by decide)).2.1⟩

/-- C3: for every input automaton, `symbol2state` maps the set of distinct
labels occurring as an output label of some arc, other than the blank label
and epsilon, bijectively onto the integer interval `[1, n]` where `n` is
the number of such labels: its keys are exactly those labels, it is
functional and injective, its values lie in `[1, n]`, and every value in
`[1, n]` is hit. -/
theorem claim_C3_symbol_table_bijection {W : Type} (A : WFST W) (b : Int) :
    (∀ x, (∃ i, (x, i) ∈ symbol2state A b) ↔
        (x ≠ b ∧ x ≠ 0 ∧ ∃ s ∈ A.states, ∃ a ∈ A.arcsOf s, a.olabel = x)) ∧
    (∀ x i j, (x, i) ∈ symbol2state A b → (x, j) ∈ symbol2state A b → i = j) ∧
    (∀ x i, (x, i) ∈ symbol2state A b → 1 ≤ i ∧ i ≤ (symbol2state A b).length) ∧
    (∀ x y i, (x, i) ∈ symbol2state A b → (y, i) ∈ symbol2state A b → x = y) ∧
    (∀ i, 1 ≤ i → i ≤ (symbol2state A b).length → ∃ x, (x, i) ∈ symbol2state A b) := by
  have hG := goodPairs_symbol2state A b
  refine ⟨?_, ?_, hG.bounds, hG.val_inj, hG.surj⟩
  · intro x
    have hkeys : x ∈ collect A b ↔ ∃ i, (x, i) ∈ symbol2state A b := by
      constructor
      · intro h
        exact mkPairs_mem_of_key (collect A b) 0 x h
      · rintro ⟨i, hi⟩
        have hm : x ∈ (symbol2state A b).map Prod.fst := List.mem_map.mpr ⟨(x, i), hi, rfl⟩
        rwa [symbol2state, mkPairs_keys] at hm
    rw [← hkeys]
    constructor
    · intro h
      exact collect_sound A b x h
    · rintro ⟨hxb, hx0, s, hs, a, ha, hol⟩
      rw [← hol]
      exact collect_complete A b s a hs ha (hol ▸ hxb) (hol ▸ hx0)
  · intro x i j hi hj
    exact hG.key_inj hi hj

theorem claim_C3_symbol_table_bijection_witness :
    ∃ i, ((2 : Int), i) ∈ symbol2state exA 1 :=
  ((claim_C3_symbol_table_bijection exA 1).1 2).mpr
    ⟨by decide, by decide, 1, by decide, ⟨2, 2, 1, 2⟩, by decide, rfl⟩

/-- C4: modelled from the spec (§4.2, `fst::Compose` is OpenFst code not in
this repository): in the composition of `A` with a filter `C`, the start is
the pair of starts; every kept state is a pair of a state of `A` and a
state of `C` and is reachable from the pair of starts through arcs that
match `A` output labels against `C` input labels; every arc pairs an `A`
arc with a matching `C` arc and carries `A`'s input label, `C`'s output
label and the semiring product of the two weights; and a kept pair state
is final with weight `w` exactly when both components are final and `w` is
the product of the two final weights. -/
theorem claim_C4_composition_contract {W : Type} [Monoid W] (A C : WFST W)
    (hCr : ∀ c ∈ C.states, c < C.numStates) :
    ((compose A C).start = A.start * C.numStates + C.start) ∧
    (∀ s ∈ (compose A C).states,
      (s / C.numStates ∈ A.states ∧ s % C.numStates ∈ C.states) ∧
      ∃ p, isPath (composeFull A C) (A.start * C.numStates + C.start) p s) ∧
    (∀ s arc, arc ∈ (compose A C).arcsOf s →
      ∃ aArc ∈ A.arcsOf (s / C.numStates), ∃ cArc ∈ C.arcsOf (s % C.numStates),
        aArc.olabel = cArc.ilabel ∧ arc.ilabel = aArc.ilabel ∧
        arc.olabel = cArc.olabel ∧ arc.weight = aArc.weight * cArc.weight ∧
        arc.dest = aArc.dest * C.numStates + cArc.dest) ∧
    (∀ s, s ∈ (compose A C).states → ∀ w, ((compose A C).finalOf s = some w ↔
      ∃ wa wc, A.finalOf (s / C.numStates) = some wa ∧
        C.finalOf (s % C.numStates) = some wc ∧ w = wa * wc)) := by
  refine ⟨rfl, ?_, ?_, ?_⟩
  · intro s hs
    simp only [compose, prune, List.mem_filter, decide_eq_true_eq] at hs
    obtain ⟨hsf, hreach⟩ := hs
    constructor
    · rw [composeFull_states_iff] at hsf
      obtain ⟨a, ha, c, hc, heq⟩ := hsf
      subst heq
      rw [encdec_div (hCr c hc), encdec_mod (hCr c hc)]
      exact ⟨ha, hc⟩
    · obtain ⟨p, hp, _⟩ := reachList_path (composeFull A C) _ s hreach
      exact ⟨p, hp⟩
  · intro s arc harc
    simp only [compose, prune] at harc
    split at harc
    · rw [composeFull_arc_iff] at harc
      obtain ⟨aArc, ha, cArc, hc, hmatch, heq⟩ := harc
      exact ⟨aArc, ha, cArc, hc, hmatch, by rw [heq], by rw [heq], by rw [heq],
        by rw [heq]⟩
    · simp at harc
  · intro s hs w
    simp only [compose, prune, List.mem_filter, decide_eq_true_eq] at hs
    simp only [compose, prune, if_pos hs.2]
    exact composeFull_final_iff A C s w

theorem claim_C4_composition_contract_witness :
    (∀ c ∈ (filterC (symbol2state exA 1) 1 : WFST Nat).states,
      c < (filterC (symbol2state exA 1) 1 : WFST Nat).numStates) ∧
    (compose exA (filterC (symbol2state exA 1) 1)).start
      = exA.start * (filterC (symbol2state exA 1) 1 : WFST Nat).numStates
        + (filterC (symbol2state exA 1) 1 : WFST Nat).start :=
  ⟨filterC_states_lt _ _,
    (claim_C4_composition_contract exA (filterC (symbol2state exA 1) 1)
      (filterC_states_lt _ _)).1⟩

/-- C5 counterexample: with blank label `1` and the lattice `exA` whose one
path has labels `1, 2`, one application accepts the sequence `[2]`, but a
second application accepts nothing (the first result's path has an epsilon
output label where the blank was deleted, and the filter of the second pass
never matches epsilon), and the two automata differ.  The claim that a
second application yields the same automaton as one application is
therefore false. -/
theorem claim_C5_counterexample :
    RemoveCTCBlankFromLattice (RemoveCTCBlankFromLattice exA 1) 1
      ≠ RemoveCTCBlankFromLattice exA 1 ∧
    accepts (RemoveCTCBlankFromLattice exA 1) [2] ∧
    ¬ accepts (RemoveCTCBlankFromLattice (RemoveCTCBlankFromLattice exA 1) 1) [2] := by
  refine ⟨?_, ?_, ?_⟩
  · intro h
    have h2 := congrArg WFST.numStates h
    exact absurd h2 (by decide)
  · exact ⟨[⟨1, 0, 1, 2⟩, ⟨2, 2, 1, 5⟩], by decide, by decide⟩
  · exact not_accepts_of_dead_start _ (by decide) (by decide) [2]

/-- C5 amended: applying `collapse_ctc` twice with the same blank label
does not in general yield the same automaton as applying it once.  A path
of the first result that contains an epsilon output label (introduced where
a blank was deleted or an adjacent duplicate collapsed) is dropped entirely
by the second pass.  Precisely: the twice-applied result accepts exactly
those raw accepted label sequences of the input that are already collapsed
(no blank label and no adjacent duplicate, so that one application passes
them through unchanged), while a single application accepts the collapses
of all epsilon-free accepted sequences. -/
theorem claim_C5_amended_twice_application {W : Type} [Monoid W] (A : WFST W) (b : Int)
    (hWF : WF A) (hAcc : Acceptor A) (hAcy : Acyclic A) (hb : b ≠ 0) :
    ∀ w, accepts (RemoveCTCBlankFromLattice (RemoveCTCBlankFromLattice A b) b) w ↔
      (rawAccepts A w ∧ collapseCTC b w = w) := by
  intro w
  have hWF1 : WF (RemoveCTCBlankFromLattice A b) := removeCTC_WF hWF hAcy
  have hAcy1 : Acyclic (RemoveCTCBlankFromLattice A b) := removeCTC_acyclic hAcy
  rw [removeCTC_accepts hWF1 hAcy1 hb]
  constructor
  · rintro ⟨wr, hraw, hw⟩
    rw [removeCTC_rawAccepts hWF hAcy hb] at hraw
    obtain ⟨hrawA, hcoll⟩ := hraw
    rw [hw, hcoll]
    exact ⟨hrawA, by rw [hcoll]⟩
  · rintro ⟨hrawA, hcoll⟩
    refine ⟨w, ?_, hcoll.symm⟩
    rw [removeCTC_rawAccepts hWF hAcy hb]
    exact ⟨hrawA, hcoll⟩

theorem claim_C5_amended_twice_application_witness :
    WF exA ∧ Acceptor exA ∧ Acyclic exA ∧ (1 : Int) ≠ 0 ∧
    (accepts (RemoveCTCBlankFromLattice (RemoveCTCBlankFromLattice exA 1) 1) [2] ↔
      (rawAccepts exA [2] ∧ collapseCTC 1 [2] = [2])) :=
  ⟨exA_WF, exA_acceptor, exA_acyclic, by decide,
    claim_C5_amended_twice_application exA 1 exA_WF exA_acceptor exA_acyclic
      (by decide) [2]⟩

/-- C6: for every non-blank, non-epsilon symbol and every accepted input
path whose label sequence is `s, s, s` (no blanks), the collapsed
output-label sequence of the corresponding output path is the single
symbol `s`: adjacent identical labels merge even without an intervening
blank. -/
theorem claim_C6_triple_repeat {W : Type} [Monoid W] (A : WFST W) (b s : Int)
    (hWF : WF A) (hAcc : Acceptor A) (hAcy : Acyclic A) (hb : b ≠ 0)
    (hsb : s ≠ b) (hs0 : s ≠ 0) :
    ∀ p, accepted A p → p.map (fun a => a.ilabel) = [s, s, s] →
      accepted (RemoveCTCBlankFromLattice A b)
        (liftPath b (symbol2state A b) ((symbol2state A b).length + 1) 0 p) ∧
      outWord (liftPath b (symbol2state A b) ((symbol2state A b).length + 1) 0 p)
        = [s] := by
  intro p haccp hlab
  have holab : p.map (fun a => a.olabel) = [s, s, s] := by
    rw [← acceptor_path_labels hAcc p A.start (pathEnd A.start p) haccp.1, hlab]
  have hnz : ∀ arc ∈ p, arc.olabel ≠ 0 := by
    intro arc harc
    have hm : arc.olabel ∈ p.map (fun a => a.olabel) := List.mem_map.mpr ⟨arc, harc, rfl⟩
    rw [holab] at hm
    have h2 : arc.olabel = s := by simpa using hm
    rw [h2]
    exact hs0
  obtain ⟨hacc2, houtw, _, _, _⟩ := @removeCTC_fwd W _ A b hWF hAcy p haccp hnz
  refine ⟨hacc2, ?_⟩
  rw [houtw, ← acceptor_path_labels hAcc p A.start (pathEnd A.start p) haccp.1, hlab]
  simp [collapseCTC, dedupFrom, hsb]

theorem claim_C6_triple_repeat_witness :
    WF exB ∧ Acceptor exB ∧ Acyclic exB ∧ (1 : Int) ≠ 0 ∧ (2 : Int) ≠ 1 ∧
    (2 : Int) ≠ 0 ∧
    accepted exB [⟨2, 2, 1, 1⟩, ⟨2, 2, 1, 2⟩, ⟨2, 2, 1, 3⟩] ∧
    ([(⟨2, 2, 1, 1⟩ : Arc Nat), ⟨2, 2, 1, 2⟩, ⟨2, 2, 1, 3⟩]).map (fun a => a.ilabel)
      = [2, 2, 2] ∧
    (accepted (RemoveCTCBlankFromLattice exB 1)
      (liftPath 1 (symbol2state exB 1) ((symbol2state exB 1).length + 1) 0
        [⟨2, 2, 1, 1⟩, ⟨2, 2, 1, 2⟩, ⟨2, 2, 1, 3⟩]) ∧
     outWord (liftPath 1 (symbol2state exB 1) ((symbol2state exB 1).length + 1) 0
        [⟨2, 2, 1, 1⟩, ⟨2, 2, 1, 2⟩, ⟨2, 2, 1, 3⟩]) = [2]) :=
  ⟨exB_WF, exB_acceptor, exB_acyclic, by decide, by decide, by decide, by decide,
    by decide,
    claim_C6_triple_repeat exB 1 2 exB_WF exB_acceptor exB_acyclic (by decide)
      (by decide) (by decide) [⟨2, 2, 1, 1⟩, ⟨2, 2, 1, 2⟩, ⟨2, 2, 1, 3⟩]
      (by decide) (by decide)⟩

/-- C7: the blank-equals-zero check fails fatally and immediately, before
any lattice is processed — the outcome for blank `0` does not depend on the
lattice collection at all — and the `blankIsEpsilon` error is raised if and
only if the successfully parsed blank label is `0`. -/
theorem claim_C7_blank_zero_fatal {W : Type} [Monoid W] [DecidableEq W]
    (parsed : Option Int) (inT outT : Bool) (lats lats2 : List (String × WFST W)) :
    ((mainModel parsed inT outT lats = Except.error MainError.blankIsEpsilon)
      ↔ parsed = some 0) ∧
    mainModel (some 0) inT outT lats = Except.error MainError.blankIsEpsilon ∧
    mainModel (some 0) inT outT lats = mainModel (some 0) inT outT lats2 := by
  refine ⟨?_, by simp [mainModel], by simp [mainModel]⟩
  cases parsed with
  | none => simp [mainModel]
  | some bv =>
    by_cases hb : bv = 0
    · subst hb
      simp [mainModel]
    · simp only [mainModel, if_neg hb]
      constructor
      · intro h
        exfalso
        by_cases ht : (inT && outT) = true
        · rw [if_pos ht] at h
          exact processAll_ne_blank bv lats h
        · rw [if_neg ht] at h
          simp at h
      · intro h
        exact absurd (Option.some.inj h) hb

theorem claim_C7_blank_zero_fatal_witness :
    mainModel (some 0) true true [("key", exA)]
      = Except.error MainError.blankIsEpsilon :=
  (claim_C7_blank_zero_fatal (some 0) true true [("key", exA)]
    ([] : List (String × WFST Nat))).2.1

/-- C8: the core transformation is deterministic — it is a pure function of
the input automaton and the blank label, so two invocations on equal inputs
produce equal outputs.  In the C++ source all state (`symbol2state`, `C`)
is function-local with no statics or globals, so no state is shared across
invocations; in this embedding purity is structural. -/
theorem claim_C8_deterministic {W : Type} [Monoid W] (A A2 : WFST W) (b b2 : Int)
    (hA : A = A2) (hb : b = b2) :
    RemoveCTCBlankFromLattice A b = RemoveCTCBlankFromLattice A2 b2 := by
  rw [hA, hb]

theorem claim_C8_deterministic_witness :
    exA = exA ∧ (1 : Int) = 1 ∧
    RemoveCTCBlankFromLattice exA 1 = RemoveCTCBlankFromLattice exA 1 :=
  ⟨rfl, rfl, claim_C8_deterministic exA exA 1 1 rfl rfl⟩

/-- C9: the result is in general a transducer, not an acceptor: every arc
of the output carries the original input-lattice label as its input label
and either that same label or epsilon as its output label, and every
accepted output path has the same input-label sequence as the epsilon-free
input path it comes from. -/
theorem claim_C9_result_is_transducer {W : Type} [Monoid W] (A : WFST W) (b : Int)
    (hWF : WF A) (hAcc : Acceptor A) (hAcy : Acyclic A) (hb : b ≠ 0) :
    (∀ s arc, arc ∈ (RemoveCTCBlankFromLattice A b).arcsOf s →
        arc.olabel = arc.ilabel ∨ arc.olabel = 0) ∧
    (∀ P, accepted (RemoveCTCBlankFromLattice A b) P →
        ∃ p, accepted A p ∧ (∀ arc ∈ p, arc.olabel ≠ 0) ∧
          P.map (fun a => a.ilabel) = p.map (fun a => a.ilabel)) := by
  have hG := goodPairs_symbol2state A b
  constructor
  · intro s arc harc
    rw [removeCTC_def] at harc
    simp only [prune] at harc
    split at harc
    · rw [composeFull_arc_iff] at harc
      obtain ⟨aArc, ha, cArc, hc, hmatch, heq⟩ := harc
      have hil : arc.ilabel = aArc.ilabel := by rw [heq]
      have hol : arc.olabel = cArc.olabel := by rw [heq]
      rcases filterC_olabel hG _ cArc hc with h | h
      · exact Or.inr (by rw [hol, h])
      · left
        rw [hol, h, ← hmatch, hil]
        exact (hAcc _ aArc ha).symm
    · simp at harc
  · intro P haccP
    obtain ⟨p, haccp, hnz, hPlift⟩ := removeCTC_bwd hWF hAcy hb P haccP
    obtain ⟨_, _, him, _, _⟩ := @removeCTC_fwd W _ A b hWF hAcy p haccp hnz
    exact ⟨p, haccp, hnz, by rw [hPlift, him]⟩

theorem claim_C9_result_is_transducer_witness :
    WF exA ∧ Acceptor exA ∧ Acyclic exA ∧ (1 : Int) ≠ 0 ∧
    (∀ s arc, arc ∈ (RemoveCTCBlankFromLattice exA 1).arcsOf s →
      arc.olabel = arc.ilabel ∨ arc.olabel = 0) :=
  ⟨exA_WF, exA_acceptor, exA_acyclic, by decide,
    (claim_C9_result_is_transducer exA 1 exA_WF exA_acceptor exA_acyclic
      (by decide)).1⟩

/-- C10: the program's only validation of the blank-symbol argument is that
it parses as an integer and differs from `0`: every parsed nonzero integer,
including negative values, is accepted, and the program proceeds to the
per-lattice processing loop with that value as the blank label. -/
theorem claim_C10_negative_blank_accepted {W : Type} [Monoid W] [DecidableEq W]
    (bv : Int) (hb : bv ≠ 0) :
    ∀ (lats : List (String × WFST W)),
      mainModel (some bv) true true lats = processAll bv lats := by
  intro lats
  simp [mainModel, hb]

theorem claim_C10_negative_blank_accepted_witness :
    (-3 : Int) ≠ 0 ∧
    mainModel (some (-3)) true true [("key", exA)] = processAll (-3) [("key", exA)] :=
  ⟨by decide, claim_C10_negative_blank_accepted (-3) (by decide) [("key", exA)]⟩
